import Mathlib

/-!
Verification of the schema-driven binary codec in `src/main.rs`
(`Schema::construct`, `Schema::to_buffer`, `Schema::from_buffer`).

Modelling conventions (shallow embedding):
* Rust `i32`/`usize` arithmetic is modelled with `Nat`/`Int`.  The bit
  accumulator `int` of `to_buffer` is an `i32` in the source; the model
  stores its 32-bit two's-complement bit pattern as a `Nat` below `2^32`
  (see `i32pat`): OR and left shift act on the pattern with only the low
  32 bits kept, the source's `int > 0` flush guards read
  `0 < int ∧ int < 2^31` on the pattern (a negative `i32` has pattern
  `≥ 2^31`), and the debug-mode panics — `val - min` overflowing `i32`,
  a shift amount reaching 32 — are modelled as `none`.  Inside the flush
  loops the guard makes the accumulator a positive `i32`, where the
  arithmetic right shift `>>= 8` is the pattern division `/ 256`.
  Theorems about whole encoder runs carry the hypothesis
  `totalBits ≤ 31`, under which the accumulator provably never reaches
  the sign bit and the pattern arithmetic coincides with exact
  arithmetic; without it the sign bit genuinely changes behaviour (four
  8-bit fields with values 0,0,0,255 make `int` negative and the guarded
  flushes emit nothing).
* A Rust panic (`unwrap` of a missing hash-map key, out-of-bounds index,
  `usize` subtraction underflow) is modelled as `Option.none`.
* `x & 0b11111111` is written `x % 256`, `x & ((1 << bits) - 1)` is written
  `x % 2 ^ bits`, `x >> k` is written `x / 2 ^ k`: these are the standard
  `Nat` renderings of the same operations.  The accumulating `|=` is kept
  as `Nat.lor` (`|||`) because for out-of-range values the OR genuinely
  differs from addition (this matters for claim C8).
* The source computes bit widths with `f32::log2(...).ceil()`.  It is
  modelled as the exact integer ceiling logarithm (`clog2` below, proved
  equal to `Nat.clog 2`).  For a span `n ≤ 2^16` this is faithful to any
  `log2` within a few ulp of the correctly rounded result: `log2 n` is
  never closer to an integer it must not cross than
  `log2(1 + 2^(-16)) ≈ 2.2e-5`, far above the `f32` rounding error near
  values of magnitude at most 17 (ulp `≈ 1.9e-6` at 16).  For larger
  spans the float computation genuinely diverges — at `n = 2^24 + 1` the
  nearest `f32` to `log2 n` is exactly `24.0`, so the source resolves 24
  bits where the exact ceiling is 25.  Claim theorems whose statements
  depend on resolved bit widths therefore carry a small-span hypothesis
  (`smallSpan`, spans at most `2^16`) marking the fidelity domain.
* Rust's `HashMap<&str, Value>` is modelled as an association list
  `List (String × Value)`; `HashMap::insert` (which overwrites) is
  modelled by prepending, so that `List.lookup` sees the newest binding.
* `slice::sort_by(compare)` lowers the `Ordering`-valued comparator to
  the predicate `is_less(a, b) = (compare(a, b) == Less)` and only ever
  calls `is_less`.  The source's comparator returns `Greater` whenever
  its FIRST argument is a Bytes field, so although it is inconsistent as
  an `Ordering` (two Bytes fields each compare `Greater` to the other),
  the derived `is_less(a, b)` holds exactly when `a` is not Bytes and
  `b` is Bytes — a strict weak order keyed on `isBytesR`.  Every stable
  sort driven by that `is_less` (Rust uses an insertion sort on short
  slices and stable merges above that, moving an element left only while
  `is_less(moving, left neighbour)`) therefore produces the stable sort
  by that key: the non-Bytes fields in declaration order, then the Bytes
  fields in declaration order.  In particular it never swaps a
  Bytes–Bytes pair.  `sortFields` below models the insertion sort with
  exactly that `is_less` test and is proved equal to the keyed stable
  sort.
-/

namespace Serializer

/-- Field specification before resolution: the source's `Field` enum built
with `bits: None, always_present: None`, as the driver constructs it. -/
inductive FieldSpec where
  | int (name : String) (min max : Int)
  | boolean (name : String)
  | bytes (name : String) (max : Int)
deriving DecidableEq

/-- Resolved field: the source's `Field` enum as rebuilt by `construct`,
with `bits` (and for Int fields `always_present`) filled in. -/
inductive RField where
  | int (name : String) (min max : Int) (bits : Nat) (alwaysPresent : Bool)
  | boolean (name : String) (bits : Nat)
  | bytes (name : String) (max : Int) (bits : Nat)
deriving DecidableEq

/-- The source's `Value` enum.  A `Buffer` payload is a byte sequence,
each entry being a `u8` (kept below 256 by the well-formedness predicate
`valuesOk`). -/
inductive Value where
  | buffer (bytes : List Nat)
  | int (val : Int)
  | boolean (b : Bool)
deriving DecidableEq

/-- The source's `Schema` struct (`int` and `bytes` are dead fields,
initialised to `0` and `[]` and never read). -/
structure Schema where
  fields : List RField
  int : Int
  maxByteLength : Nat
  bytes : List Int
deriving DecidableEq

/-- Fuel-driven ceiling base-2 logarithm: `clog2Aux fuel n` computes the
least `k` with `n ≤ 2 ^ k` provided `n ≤ fuel` (proved below by equality
with `Nat.clog 2`).  Structural recursion on the fuel keeps the function
kernel-reducible. -/
def clog2Aux : Nat → Nat → Nat
  | 0, _ => 0
  | fuel + 1, n => if n ≤ 1 then 0 else clog2Aux fuel ((n + 1) / 2) + 1

/-- Ceiling base-2 logarithm, modelling `f32::log2(n as f32).ceil() as i32`
of the source for a natural argument (see the module comment on floats). -/
def clog2 (n : Nat) : Nat := clog2Aux n n

/-- Name of a resolved field. -/
def rname : RField → String
  | .int name _ _ _ _ => name
  | .boolean name _ => name
  | .bytes name _ _ => name

/-- Resolved bit width of a field. -/
def rbits : RField → Nat
  | .int _ _ _ bits _ => bits
  | .boolean _ bits => bits
  | .bytes _ _ bits => bits

/-- Discriminator for Bytes fields. -/
def isBytesR : RField → Bool
  | .bytes _ _ _ => true
  | _ => false

/-- Resolution of one field, the loop body of `Schema::construct`:
Int fields get `bits = ceil(log2(max - min + 1))` and
`always_present = (bits == 0)`, Boolean fields get 1 bit, Bytes fields get
`bits = ceil(log2(max + 1))` for the length prefix. -/
def resolveField : FieldSpec → RField
  | .int name min max =>
      let bits := clog2 (max - min + 1).toNat
      .int name min max bits (bits == 0)
  | .boolean name => .boolean name 1
  | .bytes name max => .bytes name max (clog2 (max + 1).toNat)

/-- The comparator passed to `sort_by` in the source: `Greater` if the
first field is Bytes, else `Less` if the second is Bytes, else `Equal`. -/
def fieldCmp (a b : RField) : Ordering :=
  if isBytesR a then .gt else if isBytesR b then .lt else .eq

/-- One insertion step of the insertion sort, operating on the reversed
already-sorted prefix: the moving element `x` sinks past its left
neighbour `p` exactly while `is_less(x, p)`, i.e. while
`fieldCmp x p = Less` (the comparison order Rust's sorts actually use —
see the module comment). -/
def sinkRev (x : RField) : List RField → List RField
  | [] => [x]
  | p :: rest => if fieldCmp x p = .lt then p :: sinkRev x rest else x :: p :: rest

/-- The `v.sort_by(...)` call of the source, modelled as the insertion
sort driven by `is_less(moving, neighbour)` (see the module comment; the
result is the stable sort by the `isBytesR` key, independent of which
stable algorithm Rust picks). -/
def sortFields (l : List RField) : List RField :=
  (l.foldl (fun r x => sinkRev x r) []).reverse

/-- Sum of the resolved bit widths (`max_bits` accumulated by the
resolution loop of `construct`). -/
def totalBits (l : List RField) : Nat := (l.map rbits).sum

/-- The source's `Schema::construct`: resolve every field, sort Bytes
fields to the back, and set `max_byte_length = ((max_bits / 8) as f32)
.ceil() as i32` — note the integer division happens before the cast, so
this is the floor, not the ceiling, of `max_bits / 8`. -/
def construct (fs : List FieldSpec) : Schema :=
  let v := fs.map resolveField
  let maxBits := totalBits v
  { fields := sortFields v, int := 0, maxByteLength := maxBits / 8, bytes := [] }

/-- Spans on which the source's `f32` ceiling logarithm provably equals
the exact integer ceiling logarithm `clog2` models (see the module
comment): the range size of an Int field, and `max + 1` of a Bytes
field, at most `2 ^ 16`.  Boolean fields use no logarithm. -/
def smallSpan : FieldSpec → Bool
  | .int _ min max => decide (max - min + 1 ≤ (2 ^ 16 : Int))
  | .boolean _ => true
  | .bytes _ max => decide (max + 1 ≤ (2 ^ 16 : Int))

/-- Encoder state: the bit accumulator `int`, the pending-bit count
(misnamed `written_bytes` in the source), the flushed fixed-region bytes,
and the deferred Bytes payloads. -/
structure EncState where
  int : Nat
  writtenBits : Nat
  bytes : List Nat
  buffers : List (List Nat)
deriving DecidableEq

/-- The 32-bit two's-complement bit pattern of an integer, as a `Nat`
below `2 ^ 32`.  `EncState.int` stores the source's `i32` accumulator as
its bit pattern: OR, `& 255` and left shifts act identically on the
pattern, and the source's `int > 0` test reads
`0 < pattern ∧ pattern < 2 ^ 31` (a negative `i32` has its sign bit set,
i.e. pattern `≥ 2 ^ 31`). -/
def i32pat (v : Int) : Nat := (v % (2 ^ 32 : Int)).toNat

/-- The per-field flush loop of `to_buffer`:
`while written_bytes >= 8 && int > 0 { bytes.push(int & 255); int >>= 8;
written_bytes -= 8 }`.  The `int > 0` test on the `i32` pattern is
`0 < int ∧ int < 2 ^ 31`; inside the loop the accumulator is therefore a
positive `i32`, where the arithmetic right shift `>>= 8` agrees with the
pattern division `/ 256`.  Fuel-driven; fuel `writtenBits` is always
enough because each iteration needs `8 ≤ writtenBits` and decreases it
by 8. -/
def flushAux : Nat → EncState → EncState
  | 0, st => st
  | fuel + 1, st =>
      if 8 ≤ st.writtenBits ∧ 0 < st.int ∧ st.int < 2 ^ 31 then
        flushAux fuel
          { st with
            int := st.int / 256
            writtenBits := st.writtenBits - 8
            bytes := st.bytes ++ [st.int % 256] }
      else st

/-- The final flush loop of `to_buffer`:
`while written_bytes > 0 && int > 0 { ... }` — same body, weaker guard.
In the source `written_bytes` is an `i32` that may go negative on the
last iteration; truncated `Nat` subtraction exits the loop at the same
point. -/
def finalFlushAux : Nat → EncState → EncState
  | 0, st => st
  | fuel + 1, st =>
      if 0 < st.writtenBits ∧ 0 < st.int ∧ st.int < 2 ^ 31 then
        finalFlushAux fuel
          { st with
            int := st.int / 256
            writtenBits := st.writtenBits - 8
            bytes := st.bytes ++ [st.int % 256] }
      else st

/-- One field of the encoding loop of `to_buffer`, in `i32` semantics.
A missing name is an `unwrap` panic (`none`); a `Value` of the wrong
variant falls out of the `if let` silently, leaving the state unchanged.
For Int fields `normalized = val - min` is an `i32` subtraction whose
debug-mode overflow panic is modelled as `none`; the left shift panics
(debug) when the shift amount reaches 32, and otherwise keeps the low 32
bits of the shifted pattern, exactly as `i32 <<` does.  The byte length
of a payload is `buffer.len() as usize → i32`, an `as` cast that keeps
the low 32 bits. -/
def encField (value : List (String × Value)) (st : EncState) : RField → Option EncState
  | .int name min _ bits _ =>
      match value.lookup name with
      | none => none
      | some (Value.int v) =>
          if v - min < -(2 ^ 31 : Int) ∨ (2 ^ 31 : Int) ≤ v - min then none
          else if 32 ≤ st.writtenBits then none
          else
            some { st with
                   int := st.int ||| ((i32pat (v - min) <<< st.writtenBits) % 2 ^ 32)
                   writtenBits := st.writtenBits + bits }
      | some _ => some st
  | .boolean name _ =>
      match value.lookup name with
      | none => none
      | some (Value.boolean b) =>
          if 32 ≤ st.writtenBits then none
          else
            some { st with
                   int := st.int ||| (((if b then 1 else 0) <<< st.writtenBits) % 2 ^ 32)
                   writtenBits := st.writtenBits + 1 }
      | some _ => some st
  | .bytes name _ bits =>
      match value.lookup name with
      | none => none
      | some (Value.buffer buf) =>
          if 32 ≤ st.writtenBits then none
          else
            some { st with
                   int := st.int ||| (((buf.length % 2 ^ 32) <<< st.writtenBits) % 2 ^ 32)
                   writtenBits := st.writtenBits + bits
                   buffers := st.buffers ++ [buf] }
      | some _ => some st

/-- The field loop of `to_buffer`: encode a field, then run the flush
loop. -/
def encFields (value : List (String × Value)) : List RField → EncState → Option EncState
  | [], st => some st
  | f :: rest, st =>
      match encField value st f with
      | none => none
      | some st' => encFields value rest (flushAux st'.writtenBits st')

/-- `Vec::insert(n, a)`: insert `a` at position `n`, shifting the suffix
right.  Every use in `to_buffer` has `n ≤ length`, where this model is
exact (a Rust `Vec::insert` beyond the length would panic). -/
def listInsert (l : List Nat) (n : Nat) (a : Nat) : List Nat :=
  l.take n ++ a :: l.drop n

/-- The inner payload loop of `to_buffer`: for each payload byte `j`,
`byte_array.insert(bytes.len() + j, buffer[j])`. -/
def insertLoop : List Nat → Nat → List Nat → List Nat
  | arr, _, [] => arr
  | arr, pos, b :: bs => insertLoop (listInsert arr pos b) (pos + 1) bs

/-- The source's `Schema::to_buffer`.  The fixed bytes are pushed through
`as u8` (modelled `% 256`, an identity here since flushed bytes are
already reduced), then each deferred payload is inserted starting at
index `bytes.len()`. -/
def to_buffer (s : Schema) (value : List (String × Value)) : Option (List Nat) :=
  match encFields value s.fields ⟨0, 0, [], []⟩ with
  | none => none
  | some st =>
      let st' := finalFlushAux st.writtenBits st
      let byteArray := st'.bytes.map (· % 256)
      some (st'.buffers.foldl (fun arr buf => insertLoop arr st'.bytes.length buf) byteArray)

/-- The top-up loop of `from_buffer`:
`while read_bits < bits { int |= (buffer[buffer_index] as i32) << read_bits;
buffer_index += 1; read_bits += 8 }`, with an out-of-bounds index modelled
as `none`.  Fuel `bits` always suffices (each iteration adds 8 to
`readBits`, which starts nonnegative). -/
def topUpAux (buffer : List Nat) (bits : Nat) :
    Nat → Nat → Nat → Nat → Option (Nat × Nat × Nat)
  | 0, int, readBits, idx => some (int, readBits, idx)
  | fuel + 1, int, readBits, idx =>
      if readBits < bits then
        match buffer[idx]? with
        | none => none
        | some b => topUpAux buffer bits fuel (int ||| (b <<< readBits)) (readBits + 8) (idx + 1)
      else some (int, readBits, idx)

/-- The field loop of `from_buffer`.  Always-present Int fields emit
`Value::Int(min)` and consume nothing.  Otherwise the loop tops up, then
masks out `bits` low bits (`% 2 ^ bits`), shifts them away (`/ 2 ^ bits`)
and records the decoded value; a Bytes field takes the trailing `length`
bytes of the whole buffer (`buffer[len - length .. len]`, whose `usize`
subtraction panics — `none` — when `length > len`). -/
def decFields (buffer : List Nat) :
    List RField → Nat → Nat → Nat → List (String × Value) → Option (List (String × Value))
  | [], _, _, _, value => some value
  | f :: rest, int, readBits, idx, value =>
      match f with
      | .int name min _ bits ap =>
          if ap then
            decFields buffer rest int readBits idx ((name, Value.int min) :: value)
          else
            match topUpAux buffer bits bits int readBits idx with
            | none => none
            | some (int', rb', idx') =>
                decFields buffer rest (int' / 2 ^ bits) (rb' - bits) idx'
                  ((name, Value.int ((int' % 2 ^ bits : Nat) + min)) :: value)
      | .boolean name bits =>
          match topUpAux buffer bits bits int readBits idx with
          | none => none
          | some (int', rb', idx') =>
              decFields buffer rest (int' / 2) (rb' - 1) idx'
                ((name, Value.boolean (int' % 2 == 1)) :: value)
      | .bytes name _ bits =>
          match topUpAux buffer bits bits int readBits idx with
          | none => none
          | some (int', rb', idx') =>
              let length := int' % 2 ^ bits
              if length ≤ buffer.length then
                decFields buffer rest (int' / 2 ^ bits) (rb' - bits) idx'
                  ((name, Value.buffer (buffer.drop (buffer.length - length))) :: value)
              else none

/-- The source's `Schema::from_buffer`: it unconditionally reads
`buffer[0]` (panicking — `none` — on an empty input), then walks the
fields with `read_bits = 8` and `buffer_index = 1`. -/
def from_buffer (s : Schema) (buffer : List Nat) : Option (List (String × Value)) :=
  match buffer[0]? with
  | none => none
  | some b0 => decFields buffer s.fields b0 8 1 []

/-! Specification-side derived notions used to state properties of the
encoder and decoder. -/

/-- Minimal little-endian byte representation of a natural number: no
trailing zero bytes, `natToLE 0 = []`.  Fuel-driven for kernel
reducibility; fuel `n` always suffices. -/
def natToLEAux : Nat → Nat → List Nat
  | 0, _ => []
  | fuel + 1, n => if n = 0 then [] else n % 256 :: natToLEAux fuel (n / 256)

/-- Minimal little-endian byte representation of a natural number. -/
def natToLE (n : Nat) : List Nat := natToLEAux n n

/-- Value of a little-endian byte list. -/
def fromLE : List Nat → Nat
  | [] => 0
  | b :: bs => b + 256 * fromLE bs

/-- Well-formedness of one field's entry in the value mapping, mirroring
what the claims assume of the encoder's input: the name is bound, the
variant matches, an Int value lies within `[min, max]`, and a Bytes
payload has length at most `max` with `u8` entries. -/
def fieldOk (value : List (String × Value)) : RField → Bool
  | .int name min max _ _ =>
      match value.lookup name with
      | some (Value.int v) => decide (min ≤ v) && decide (v ≤ max)
      | _ => false
  | .boolean name _ =>
      match value.lookup name with
      | some (Value.boolean _) => true
      | _ => false
  | .bytes name max _ =>
      match value.lookup name with
      | some (Value.buffer p) => decide ((p.length : Int) ≤ max) && p.all (fun b => b < 256)
      | _ => false

/-- Well-formedness of the whole value mapping for a field list. -/
def valuesOk (value : List (String × Value)) (l : List RField) : Bool :=
  l.all (fieldOk value)

/-- The nonnegative quantity the encoder ORs into the accumulator for one
field: `val - min` for Int, `0` or `1` for Boolean, the payload length
for Bytes (and `0` for entries the encoder would skip or reject). -/
def normalizedOf (value : List (String × Value)) : RField → Nat
  | .int name min _ _ _ =>
      match value.lookup name with
      | some (Value.int v) => (v - min).toNat
      | _ => 0
  | .boolean name _ =>
      match value.lookup name with
      | some (Value.boolean b) => if b then 1 else 0
      | _ => 0
  | .bytes name _ _ =>
      match value.lookup name with
      | some (Value.buffer p) => p.length
      | _ => 0

/-- The packed fixed-width bitstream as one natural number: field values
at increasing bit offsets in resolved field order, first field in the
lowest bits. -/
def packN (value : List (String × Value)) : List RField → Nat
  | [] => 0
  | f :: rest => normalizedOf value f + 2 ^ rbits f * packN value rest

/-- The deferred payloads, in resolved field order. -/
def payloadsOf (value : List (String × Value)) (l : List RField) : List (List Nat) :=
  l.filterMap fun f =>
    match f with
    | .bytes name _ _ =>
        match value.lookup name with
        | some (Value.buffer p) => some p
        | _ => none
    | _ => none

/-- What `construct` guarantees of each resolved field (proved below):
bit widths follow the ceiling-log law and `always_present` marks exactly
the zero-width Int fields. -/
def resolvedOk : RField → Prop
  | .int _ min max bits ap => bits = clog2 (max - min + 1).toNat ∧ (ap = true ↔ bits = 0)
  | .boolean _ bits => bits = 1
  | .bytes _ max bits => bits = clog2 (max + 1).toNat

/-! Basic facts about the ceiling logarithm. -/

theorem clog2Aux_eq_clog (fuel : Nat) : ∀ n : Nat, n ≤ fuel → clog2Aux fuel n = Nat.clog 2 n := by
  induction fuel with
  | zero =>
      intro n hn
      interval_cases n
      simp [clog2Aux, Nat.clog_of_right_le_one]
  | succ fuel ih =>
      intro n hn
      by_cases h1 : n ≤ 1
      · simp [clog2Aux, h1, Nat.clog_of_right_le_one h1]
      · have h2 : 2 ≤ n := by omega
        have hrec : (n + 1) / 2 ≤ fuel := by omega
        have hrw := Nat.clog_of_two_le (b := 2) (by norm_num) h2
        have h3 : n + 2 - 1 = n + 1 := by omega
        rw [h3] at hrw
        simp [clog2Aux, if_neg h1, ih _ hrec, hrw]

theorem clog2_eq_clog (n : Nat) : clog2 n = Nat.clog 2 n :=
  clog2Aux_eq_clog n n le_rfl

theorem le_two_pow_clog2 (n : Nat) : n ≤ 2 ^ clog2 n := by
  rw [clog2_eq_clog]
  exact Nat.le_pow_clog (by norm_num) n

theorem clog2_eq_zero_iff {n : Nat} : clog2 n = 0 ↔ n ≤ 1 := by
  rw [clog2_eq_clog]
  constructor
  · intro h
    by_contra hc
    have := Nat.clog_pos (b := 2) (n := n) (by norm_num) (by omega)
    omega
  · intro h
    exact Nat.clog_of_right_le_one h 2

/-! The sort: with the source's comparator, the modelled insertion sort
moves every Bytes field behind every other field and reverses the Bytes
fields' relative order. -/

theorem fieldCmp_eq_lt_iff (a b : RField) :
    fieldCmp a b = .lt ↔ (isBytesR a = false ∧ isBytesR b = true) := by
  by_cases h : isBytesR a <;> by_cases h2 : isBytesR b <;> simp [fieldCmp, h, h2]

theorem sinkRev_bytes {x : RField} (hx : isBytesR x = true) :
    ∀ l : List RField, sinkRev x l = x :: l := by
  intro l
  cases l with
  | nil => rfl
  | cons p t =>
      have : ¬ fieldCmp x p = .lt := by simp [fieldCmp_eq_lt_iff, hx]
      simp [sinkRev, this]

theorem sinkRev_nonBytes {x : RField} (hx : isBytesR x = false) :
    ∀ rbs rnb : List RField, (∀ p ∈ rbs, isBytesR p = true) →
      (∀ p ∈ rnb, isBytesR p = false) →
      sinkRev x (rbs ++ rnb) = rbs ++ x :: rnb := by
  intro rbs
  induction rbs with
  | nil =>
      intro rnb _ hrnb
      cases rnb with
      | nil => simp [sinkRev]
      | cons p t =>
          have hp : isBytesR p = false := hrnb p (by simp)
          have : ¬ fieldCmp x p = .lt := by simp [fieldCmp_eq_lt_iff, hx, hp]
          simp [sinkRev, this]
  | cons b rbs ih =>
      intro rnb hbs hrnb
      have hb : fieldCmp x b = .lt := by
        rw [fieldCmp_eq_lt_iff]
        exact ⟨hx, hbs b (by simp)⟩
      simp only [List.cons_append, sinkRev, if_pos hb]
      exact congrArg (b :: ·) (ih rnb (fun p hp => hbs p (by simp [hp])) hrnb)

theorem foldl_sinkRev (l : List RField) :
    ∀ rbs rnb : List RField, (∀ p ∈ rbs, isBytesR p = true) →
      (∀ p ∈ rnb, isBytesR p = false) →
      l.foldl (fun r x => sinkRev x r) (rbs ++ rnb) =
        ((l.filter isBytesR).reverse ++ rbs) ++
          ((l.filter (fun f => !isBytesR f)).reverse ++ rnb) := by
  induction l with
  | nil => intro rbs rnb _ _; simp
  | cons x l ih =>
      intro rbs rnb hbs hrnb
      by_cases hx : isBytesR x = true
      · have step : sinkRev x (rbs ++ rnb) = (x :: rbs) ++ rnb := sinkRev_bytes hx _
        have ihx := ih (x :: rbs) rnb
          (by intro p hp; rcases List.mem_cons.1 hp with h | h
              · subst h; exact hx
              · exact hbs p h) hrnb
        simp only [List.foldl_cons, step, ihx, List.filter_cons, hx]
        simp [hx]
      · have hx' : isBytesR x = false := by simpa using hx
        have step : sinkRev x (rbs ++ rnb) = rbs ++ x :: rnb :=
          sinkRev_nonBytes hx' rbs rnb hbs hrnb
        have ihx := ih rbs (x :: rnb) hbs
          (by intro p hp; rcases List.mem_cons.1 hp with h | h
              · subst h; exact hx'
              · exact hrnb p h)
        simp only [List.foldl_cons, step, ihx, List.filter_cons, hx']
        simp [hx']

theorem sortFields_eq (l : List RField) :
    sortFields l = l.filter (fun f => !isBytesR f) ++ l.filter isBytesR := by
  have h := foldl_sinkRev l [] [] (by simp) (by simp)
  simp only [List.nil_append, List.append_nil] at h
  simp [sortFields, h]

theorem mem_sortFields {f : RField} {l : List RField} : f ∈ sortFields l ↔ f ∈ l := by
  by_cases hf : isBytesR f = true <;>
    simp [sortFields_eq, List.mem_append, List.mem_filter, hf]

/-! Facts about `construct`. -/

theorem construct_fields (fs : List FieldSpec) :
    (construct fs).fields =
      (fs.map resolveField).filter (fun f => !isBytesR f) ++
        (fs.map resolveField).filter isBytesR := by
  simp [construct, sortFields_eq]

theorem totalBits_append (l₁ l₂ : List RField) :
    totalBits (l₁ ++ l₂) = totalBits l₁ + totalBits l₂ := by
  simp [totalBits]

theorem totalBits_reverse (l : List RField) : totalBits l.reverse = totalBits l := by
  simp [totalBits, List.map_reverse, List.sum_reverse]

theorem totalBits_cons (f : RField) (l : List RField) :
    totalBits (f :: l) = rbits f + totalBits l := by
  simp [totalBits]

theorem totalBits_filter_split (l : List RField) (p : RField → Bool) :
    totalBits (l.filter (fun f => !p f)) + totalBits (l.filter p) = totalBits l := by
  induction l with
  | nil => simp [totalBits]
  | cons x l ih =>
      by_cases hx : p x = true
      · have h1 : (x :: l).filter (fun f => !p f) = l.filter (fun f => !p f) := by
          simp [List.filter_cons, hx]
        have h2 : (x :: l).filter p = x :: l.filter p := by simp [List.filter_cons, hx]
        rw [h1, h2, totalBits_cons, totalBits_cons]
        omega
      · have hx' : p x = false := by simpa using hx
        have h1 : (x :: l).filter (fun f => !p f) = x :: l.filter (fun f => !p f) := by
          simp [List.filter_cons, hx']
        have h2 : (x :: l).filter p = l.filter p := by simp [List.filter_cons, hx']
        rw [h1, h2, totalBits_cons, totalBits_cons]
        omega

theorem totalBits_sortFields (l : List RField) : totalBits (sortFields l) = totalBits l := by
  rw [sortFields_eq, totalBits_append]
  exact totalBits_filter_split l isBytesR

theorem construct_maxByteLength (fs : List FieldSpec) :
    (construct fs).maxByteLength = totalBits (construct fs).fields / 8 := by
  simp [construct, totalBits_sortFields]

theorem resolvedOk_resolveField (g : FieldSpec) : resolvedOk (resolveField g) := by
  cases g with
  | int name min max => refine ⟨rfl, ?_⟩; simp [beq_iff_eq]
  | boolean name => rfl
  | bytes name max => rfl

theorem construct_resolvedOk (fs : List FieldSpec) :
    ∀ f ∈ (construct fs).fields, resolvedOk f := by
  intro f hf
  have : f ∈ fs.map resolveField := by
    have : f ∈ sortFields (fs.map resolveField) := by
      simpa [construct] using hf
    exact mem_sortFields.1 this
  rcases List.mem_map.1 this with ⟨g, _, rfl⟩
  exact resolvedOk_resolveField g

/-! Bit-packing arithmetic: ORing fresh bits above the live ones is
addition, and extracting packed chunks is mod/div arithmetic. -/

theorem lor_shiftLeft_eq_add {a k : Nat} (h : a < 2 ^ k) (b : Nat) :
    a ||| (b <<< k) = b * 2 ^ k + a := by
  rw [Nat.shiftLeft_eq, Nat.lor_comm, Nat.mul_comm b]
  exact (Nat.mul_add_lt_is_or h b).symm

theorem mod_lor_next_byte (x r : Nat) :
    (x % 2 ^ r) ||| ((x / 2 ^ r % 256) <<< r) = x % 2 ^ (r + 8) := by
  have h : x % 2 ^ r < 2 ^ r := Nat.mod_lt _ (Nat.two_pow_pos r)
  rw [lor_shiftLeft_eq_add h]
  have h256 : (256 : Nat) = 2 ^ 8 := by norm_num
  rw [h256, pow_add, Nat.mod_mul]
  ring

theorem mod_pow_mod {x bits rb : Nat} (h : bits ≤ rb) :
    x % 2 ^ rb % 2 ^ bits = x % 2 ^ bits :=
  Nat.mod_mod_of_dvd x (pow_dvd_pow 2 h)

theorem mod_pow_div {x bits rb : Nat} (h : bits ≤ rb) :
    x % 2 ^ rb / 2 ^ bits = x / 2 ^ bits % 2 ^ (rb - bits) := by
  have e : 2 ^ rb = 2 ^ bits * 2 ^ (rb - bits) := by
    rw [← pow_add]
    congr 1
    omega
  rw [e, Nat.mod_mul_right_div_self]

/-! Little-endian byte lists. -/

theorem fromLE_append_singleton (B : List Nat) (b : Nat) :
    fromLE (B ++ [b]) = fromLE B + b * 256 ^ B.length := by
  induction B with
  | nil => simp [fromLE]
  | cons c B ih =>
      show fromLE (c :: (B ++ [b])) = fromLE (c :: B) + b * 256 ^ (B.length + 1)
      simp only [fromLE, ih]
      ring

theorem fromLE_eq_zero {B : List Nat} (h : fromLE B = 0) : ∀ b ∈ B, b = 0 := by
  induction B with
  | nil => simp
  | cons c B ih =>
      simp only [fromLE] at h
      intro b hb
      rcases List.mem_cons.1 hb with hb | hb
      · omega
      · exact ih (by omega) b hb

theorem natToLEAux_congr :
    ∀ fuel₁ fuel₂ n : Nat, n ≤ fuel₁ → n ≤ fuel₂ → natToLEAux fuel₁ n = natToLEAux fuel₂ n := by
  intro fuel₁
  induction fuel₁ with
  | zero =>
      intro fuel₂ n h1 _
      interval_cases n
      cases fuel₂ <;> simp [natToLEAux]
  | succ f ih =>
      intro fuel₂ n h1 h2
      cases fuel₂ with
      | zero =>
          interval_cases n
          simp [natToLEAux]
      | succ f2 =>
          by_cases hn : n = 0
          · simp [natToLEAux, hn]
          · have hlt : n / 256 < n := Nat.div_lt_self (by omega) (by norm_num)
            simp only [natToLEAux, if_neg hn]
            exact congrArg _ (ih f2 (n / 256) (by omega) (by omega))

theorem natToLE_eq (n : Nat) :
    natToLE n = if n = 0 then [] else n % 256 :: natToLE (n / 256) := by
  by_cases hn : n = 0
  · simp [natToLE, natToLEAux, hn]
  · cases n with
    | zero => exact absurd rfl hn
    | succ m =>
        have hlt : (m + 1) / 256 < m + 1 := Nat.div_lt_self (by omega) (by norm_num)
        simp only [natToLE, natToLEAux, if_neg hn]
        exact congrArg _ (natToLEAux_congr m ((m + 1) / 256) ((m + 1) / 256) (by omega) le_rfl)

theorem fromLE_natToLE (n : Nat) : fromLE (natToLE n) = n := by
  induction n using Nat.strong_induction_on with
  | _ n ih =>
      rw [natToLE_eq]
      by_cases hn : n = 0
      · simp [hn, fromLE]
      · simp only [if_neg hn, fromLE]
        rw [ih (n / 256) (Nat.div_lt_self (by omega) (by norm_num))]
        omega

theorem natToLE_mem_lt {n : Nat} : ∀ b ∈ natToLE n, b < 256 := by
  induction n using Nat.strong_induction_on with
  | _ n ih =>
      rw [natToLE_eq]
      by_cases hn : n = 0
      · simp [hn]
      · simp only [if_neg hn]
        intro b hb
        rcases List.mem_cons.1 hb with hb | hb
        · omega
        · exact ih (n / 256) (Nat.div_lt_self (by omega) (by norm_num)) b hb

theorem eq_natToLE_of_fromLE {B : List Nat} (hlt : ∀ b ∈ B, b < 256)
    (hnz : B.getLast? ≠ some 0) : B = natToLE (fromLE B) := by
  induction B with
  | nil => rw [natToLE_eq]; simp [fromLE]
  | cons c B ih =>
      rw [natToLE_eq]
      by_cases h0 : fromLE (c :: B) = 0
      · exfalso
        have hne : (c :: B) ≠ [] := by simp
        have hlast := List.getLast_mem hne
        have hz := fromLE_eq_zero h0 _ hlast
        exact hnz (by rw [List.getLast?_eq_getLast _ hne, hz])
      · rw [if_neg h0]
        have hc : c < 256 := hlt c (by simp)
        have e1 : fromLE (c :: B) % 256 = c := by simp only [fromLE]; omega
        have e2 : fromLE (c :: B) / 256 = fromLE B := by simp only [fromLE]; omega
        rw [e1, e2]
        have hBnz : B.getLast? ≠ some 0 := by
          cases B with
          | nil => simp
          | cons d D =>
              intro hcon
              exact hnz (by rw [List.getLast?_cons_cons]; exact hcon)
        exact congrArg (c :: ·) (ih (fun b hb => hlt b (by simp [hb])) hBnz)

theorem natToLE_getElem {n : Nat} :
    ∀ (i : Nat) (h : i < (natToLE n).length), (natToLE n)[i] = n / 256 ^ i % 256 := by
  induction n using Nat.strong_induction_on with
  | _ n ih =>
      intro i h
      by_cases hn : n = 0
      · rw [natToLE_eq] at h
        simp [hn] at h
      · have heq := natToLE_eq n
        rw [if_neg hn] at heq
        cases i with
        | zero => simp [heq]
        | succ j =>
            have hj : j < (natToLE (n / 256)).length := by
              have := h
              rw [heq] at this
              simpa using this
            simp only [heq, List.getElem_cons_succ]
            rw [ih (n / 256) (Nat.div_lt_self (by omega) (by norm_num)) j hj]
            rw [Nat.div_div_eq_div_mul, pow_succ]
            ring_nf

/-! Encoder invariants.  `encVal` is the total value carried by the
flushed bytes plus the live accumulator; `encBits` is the total number of
bits accounted for.  Both are preserved by flushing. -/

/-- Flushed-bytes value plus accumulator, as one natural number. -/
def encVal (st : EncState) : Nat := fromLE st.bytes + st.int * 256 ^ st.bytes.length

/-- Bits accounted for: 8 per flushed byte plus the pending count. -/
def encBits (st : EncState) : Nat := 8 * st.bytes.length + st.writtenBits

theorem flush_step_encVal (B : List Nat) (int : Nat) :
    fromLE (B ++ [int % 256]) + int / 256 * 256 ^ (B.length + 1) =
      fromLE B + int * 256 ^ B.length := by
  rw [fromLE_append_singleton, pow_succ]
  have h : int % 256 + 256 * (int / 256) = int := Nat.mod_add_div int 256
  calc fromLE B + int % 256 * 256 ^ B.length + int / 256 * (256 ^ B.length * 256)
      = fromLE B + (int % 256 + 256 * (int / 256)) * 256 ^ B.length := by ring
    _ = fromLE B + int * 256 ^ B.length := by rw [h]

theorem flushAux_spec :
    ∀ (fuel : Nat) (st : EncState), st.writtenBits ≤ 8 * fuel + 7 →
      st.writtenBits ≤ 31 → st.int < 2 ^ st.writtenBits →
      (flushAux fuel st).buffers = st.buffers ∧
      encVal (flushAux fuel st) = encVal st ∧
      encBits (flushAux fuel st) = encBits st ∧
      ((∀ b ∈ st.bytes, b < 256) → ∀ b ∈ (flushAux fuel st).bytes, b < 256) ∧
      (flushAux fuel st).int < 2 ^ (flushAux fuel st).writtenBits ∧
      ((0 < st.int ∨ st.bytes.getLast? ≠ some 0) →
        (0 < (flushAux fuel st).int ∨ (flushAux fuel st).bytes.getLast? ≠ some 0)) ∧
      ((flushAux fuel st).writtenBits < 8 ∨ (flushAux fuel st).int = 0) ∧
      (flushAux fuel st).writtenBits ≤ st.writtenBits := by
  intro fuel
  induction fuel with
  | zero =>
      intro st hst h31 hbound
      refine ⟨rfl, rfl, rfl, fun h => h, hbound, fun h => h, ?_, le_rfl⟩
      left
      simpa [flushAux] using (by omega : st.writtenBits < 8)
  | succ fuel ih =>
      intro st hst h31 hbound
      by_cases hc : 8 ≤ st.writtenBits ∧ 0 < st.int
      · have hi31 : st.int < 2 ^ 31 :=
          lt_of_lt_of_le hbound (Nat.pow_le_pow_right (by norm_num) h31)
        have hcond : 8 ≤ st.writtenBits ∧ 0 < st.int ∧ st.int < 2 ^ 31 :=
          ⟨hc.1, hc.2, hi31⟩
        set st₁ : EncState :=
          { st with
            int := st.int / 256
            writtenBits := st.writtenBits - 8
            bytes := st.bytes ++ [st.int % 256] } with hst₁
        have hstep : flushAux (fuel + 1) st = flushAux fuel st₁ := by
          rw [flushAux, if_pos hcond]
        have hbound₁ : st₁.int < 2 ^ st₁.writtenBits := by
          show st.int / 256 < 2 ^ (st.writtenBits - 8)
          have he : 2 ^ st.writtenBits = 2 ^ (st.writtenBits - 8) * 256 := by
            have h2 : (256 : Nat) = 2 ^ 8 := by norm_num
            rw [h2, ← pow_add]
            congr 1
            omega
          rw [Nat.div_lt_iff_lt_mul (by norm_num)]
          rw [he] at hbound
          exact hbound
        obtain ⟨hbuf, hval, hbits, hlt, hbound', hnz, hpost, hwr⟩ :=
          ih st₁ (by simp [hst₁]; omega) (by simp [hst₁]; omega) hbound₁
        rw [hstep]
        refine ⟨by rw [hbuf], ?_, ?_, ?_, hbound', ?_, hpost, ?_⟩
        · rw [hval]
          show encVal st₁ = encVal st
          simp only [encVal, hst₁, List.length_append, List.length_cons, List.length_nil]
          exact flush_step_encVal st.bytes st.int
        · rw [hbits]
          show encBits st₁ = encBits st
          simp only [encBits, hst₁, List.length_append, List.length_cons, List.length_nil]
          omega
        · intro hb
          refine hlt ?_
          intro b hbmem
          rcases List.mem_append.1 hbmem with h | h
          · exact hb b h
          · simp at h
            omega
        · intro _
          refine hnz ?_
          by_cases hz : 0 < st.int / 256
          · left
            exact hz
          · right
            show (st.bytes ++ [st.int % 256]).getLast? ≠ some 0
            rw [List.getLast?_concat]
            have : st.int % 256 ≠ 0 := by omega
            simpa using this
        · have h1 : st₁.writtenBits = st.writtenBits - 8 := rfl
          omega
      · have hcond : ¬(8 ≤ st.writtenBits ∧ 0 < st.int ∧ st.int < 2 ^ 31) := by
          intro h
          exact hc ⟨h.1, h.2.1⟩
        have hstep : flushAux (fuel + 1) st = st := by
          rw [flushAux, if_neg hcond]
        rw [hstep]
        refine ⟨rfl, rfl, rfl, fun h => h, hbound, fun h => h, ?_, le_rfl⟩
        omega

theorem finalFlushAux_spec :
    ∀ (fuel : Nat) (st : EncState), st.writtenBits ≤ 8 * fuel →
      st.writtenBits ≤ 31 → st.int < 2 ^ st.writtenBits →
      (finalFlushAux fuel st).buffers = st.buffers ∧
      encVal (finalFlushAux fuel st) = encVal st ∧
      ((∀ b ∈ st.bytes, b < 256) → ∀ b ∈ (finalFlushAux fuel st).bytes, b < 256) ∧
      (finalFlushAux fuel st).int < 2 ^ (finalFlushAux fuel st).writtenBits ∧
      ((0 < st.int ∨ st.bytes.getLast? ≠ some 0) →
        (0 < (finalFlushAux fuel st).int ∨ (finalFlushAux fuel st).bytes.getLast? ≠ some 0)) ∧
      ((finalFlushAux fuel st).int = 0 ∨ (finalFlushAux fuel st).writtenBits = 0) := by
  intro fuel
  induction fuel with
  | zero =>
      intro st hst h31 hbound
      refine ⟨rfl, rfl, fun h => h, hbound, fun h => h, ?_⟩
      right
      simpa [finalFlushAux] using (by omega : st.writtenBits = 0)
  | succ fuel ih =>
      intro st hst h31 hbound
      by_cases hc : 0 < st.writtenBits ∧ 0 < st.int
      · have hi31 : st.int < 2 ^ 31 :=
          lt_of_lt_of_le hbound (Nat.pow_le_pow_right (by norm_num) h31)
        have hcond : 0 < st.writtenBits ∧ 0 < st.int ∧ st.int < 2 ^ 31 :=
          ⟨hc.1, hc.2, hi31⟩
        set st₁ : EncState :=
          { st with
            int := st.int / 256
            writtenBits := st.writtenBits - 8
            bytes := st.bytes ++ [st.int % 256] } with hst₁
        have hstep : finalFlushAux (fuel + 1) st = finalFlushAux fuel st₁ := by
          rw [finalFlushAux, if_pos hcond]
        have hbound₁ : st₁.int < 2 ^ st₁.writtenBits := by
          show st.int / 256 < 2 ^ (st.writtenBits - 8)
          by_cases hw : 8 ≤ st.writtenBits
          · have he : 2 ^ st.writtenBits = 2 ^ (st.writtenBits - 8) * 256 := by
              have h2 : (256 : Nat) = 2 ^ 8 := by norm_num
              rw [h2, ← pow_add]
              congr 1
              omega
            rw [Nat.div_lt_iff_lt_mul (by norm_num)]
            rw [he] at hbound
            exact hbound
          · have h1 : st.int < 256 := by
              have : (2 : Nat) ^ st.writtenBits ≤ 2 ^ 7 :=
                Nat.pow_le_pow_right (by norm_num) (by omega)
              omega
            have h2 : st.int / 256 = 0 := by omega
            have h3 : st.writtenBits - 8 = 0 := by omega
            simp [h2, h3]
        obtain ⟨hbuf, hval, hlt, hbound', hnz, hpost⟩ :=
          ih st₁ (by simp [hst₁]; omega) (by simp [hst₁]; omega) hbound₁
        rw [hstep]
        refine ⟨by rw [hbuf], ?_, ?_, hbound', ?_, hpost⟩
        · rw [hval]
          show encVal st₁ = encVal st
          simp only [encVal, hst₁, List.length_append, List.length_cons, List.length_nil]
          exact flush_step_encVal st.bytes st.int
        · intro hb
          refine hlt ?_
          intro b hbmem
          rcases List.mem_append.1 hbmem with h | h
          · exact hb b h
          · simp at h
            omega
        · intro _
          refine hnz ?_
          by_cases hz : 0 < st.int / 256
          · left
            exact hz
          · right
            show (st.bytes ++ [st.int % 256]).getLast? ≠ some 0
            rw [List.getLast?_concat]
            have : st.int % 256 ≠ 0 := by omega
            simpa using this
      · have hcond : ¬(0 < st.writtenBits ∧ 0 < st.int ∧ st.int < 2 ^ 31) := by
          intro h
          exact hc ⟨h.1, h.2.1⟩
        have hstep : finalFlushAux (fuel + 1) st = st := by
          rw [finalFlushAux, if_neg hcond]
        rw [hstep]
        refine ⟨rfl, rfl, fun h => h, hbound, fun h => h, ?_⟩
        omega

theorem pow256_eq (k : Nat) : (256 : Nat) ^ k = 2 ^ (8 * k) := by
  rw [show (256 : Nat) = 2 ^ 8 by norm_num, ← pow_mul]

theorem normalizedOf_lt {value : List (String × Value)} {f : RField}
    (hres : resolvedOk f) (hok : fieldOk value f = true) :
    normalizedOf value f < 2 ^ rbits f := by
  cases f with
  | int name min max bits ap =>
      obtain ⟨hbits, -⟩ := hres
      cases hv : value.lookup name with
      | none => simp [fieldOk, hv] at hok
      | some v =>
          cases v with
          | int v =>
              simp only [fieldOk, hv, Bool.and_eq_true, decide_eq_true_eq] at hok
              obtain ⟨h1, h2⟩ := hok
              simp only [normalizedOf, hv, rbits]
              have hle := le_two_pow_clog2 (max - min + 1).toNat
              rw [hbits]
              omega
          | boolean b => simp [fieldOk, hv] at hok
          | buffer p => simp [fieldOk, hv] at hok
  | boolean name bits =>
      have hb : bits = 1 := hres
      cases hv : value.lookup name with
      | none => simp [fieldOk, hv] at hok
      | some v =>
          cases v with
          | boolean b =>
              simp only [normalizedOf, hv, rbits, hb]
              cases b <;> norm_num
          | int v => simp [fieldOk, hv] at hok
          | buffer p => simp [fieldOk, hv] at hok
  | bytes name max bits =>
      have hbits : bits = clog2 (max + 1).toNat := hres
      cases hv : value.lookup name with
      | none => simp [fieldOk, hv] at hok
      | some v =>
          cases v with
          | buffer p =>
              simp only [fieldOk, hv, Bool.and_eq_true, decide_eq_true_eq] at hok
              obtain ⟨h1, -⟩ := hok
              simp only [normalizedOf, hv, rbits]
              have hle := le_two_pow_clog2 (max + 1).toNat
              rw [hbits]
              omega
          | int v => simp [fieldOk, hv] at hok
          | boolean b => simp [fieldOk, hv] at hok

theorem payloadsOf_cons (value : List (String × Value)) (f : RField) (l : List RField) :
    payloadsOf value (f :: l) = payloadsOf value [f] ++ payloadsOf value l := by
  cases f with
  | int name min max bits ap => simp [payloadsOf, List.filterMap_cons]
  | boolean name bits => simp [payloadsOf, List.filterMap_cons]
  | bytes name max bits =>
      cases hv : value.lookup name with
      | none => simp [payloadsOf, List.filterMap_cons, hv]
      | some v => cases v <;> simp [payloadsOf, List.filterMap_cons, hv]

/-- On a well-formed entry whose bits fit the `i32` budget
(`writtenBits + bits ≤ 31`), `encField` hits no panic and no wrap: the
subtraction stays in range, the shift amount stays below 32, the shifted
value stays below `2 ^ 32`, and the result is the exact-arithmetic OR of
the normalized value shifted into place. -/
theorem encField_spec {value : List (String × Value)} {f : RField} (st : EncState)
    (hres : resolvedOk f) (hok : fieldOk value f = true)
    (hwr : st.writtenBits + rbits f ≤ 31) :
    encField value st f =
      some { st with
             int := st.int ||| (normalizedOf value f <<< st.writtenBits)
             writtenBits := st.writtenBits + rbits f
             buffers := st.buffers ++ payloadsOf value [f] } := by
  have hnorm := normalizedOf_lt hres hok
  cases f with
  | int name min max bits ap =>
      cases hv : value.lookup name with
      | none => simp [fieldOk, hv] at hok
      | some v =>
          cases v with
          | int v =>
              simp only [rbits] at hwr
              simp only [normalizedOf, hv, rbits] at hnorm
              have hok' := hok
              simp only [fieldOk, hv, Bool.and_eq_true, decide_eq_true_eq] at hok'
              obtain ⟨h1, h2⟩ := hok'
              have h0 : (0 : Int) ≤ v - min := by omega
              have hple : (2 : Nat) ^ bits ≤ 2 ^ 31 :=
                Nat.pow_le_pow_right (by norm_num) (by omega)
              have hlt31 : v - min < (2 ^ 31 : Int) := by
                have h3 : (v - min).toNat < 2 ^ 31 := lt_of_lt_of_le hnorm hple
                omega
              have hg1 : ¬(v - min < -(2 ^ 31 : Int) ∨ (2 ^ 31 : Int) ≤ v - min) := by
                push_neg
                exact ⟨by omega, hlt31⟩
              have hg2 : ¬(32 ≤ st.writtenBits) := by omega
              have hpat : i32pat (v - min) = (v - min).toNat := by
                unfold i32pat
                rw [Int.emod_eq_of_lt h0 (by omega)]
              have hsh : ((v - min).toNat <<< st.writtenBits) % 2 ^ 32 =
                  (v - min).toNat <<< st.writtenBits := by
                apply Nat.mod_eq_of_lt
                rw [Nat.shiftLeft_eq]
                calc (v - min).toNat * 2 ^ st.writtenBits
                    < 2 ^ bits * 2 ^ st.writtenBits :=
                      mul_lt_mul_of_pos_right hnorm (Nat.two_pow_pos _)
                  _ = 2 ^ (bits + st.writtenBits) := (pow_add 2 bits st.writtenBits).symm
                  _ ≤ 2 ^ 32 := Nat.pow_le_pow_right (by norm_num) (by omega)
              simp only [encField, hv]
              rw [if_neg hg1, if_neg hg2, hpat, hsh]
              simp [normalizedOf, hv, rbits, payloadsOf]
          | boolean b => simp [fieldOk, hv] at hok
          | buffer p => simp [fieldOk, hv] at hok
  | boolean name bits =>
      have hb : bits = 1 := hres
      cases hv : value.lookup name with
      | none => simp [fieldOk, hv] at hok
      | some v =>
          cases v with
          | boolean b =>
              simp only [rbits] at hwr
              have hg2 : ¬(32 ≤ st.writtenBits) := by omega
              have hsh : (((if b then 1 else 0 : Nat)) <<< st.writtenBits) % 2 ^ 32 =
                  ((if b then 1 else 0 : Nat)) <<< st.writtenBits := by
                apply Nat.mod_eq_of_lt
                rw [Nat.shiftLeft_eq]
                have h1 : ((if b then 1 else 0 : Nat)) ≤ 1 := by cases b <;> simp
                calc ((if b then 1 else 0 : Nat)) * 2 ^ st.writtenBits
                    ≤ 1 * 2 ^ st.writtenBits := Nat.mul_le_mul_right _ h1
                  _ < 2 ^ 32 := by
                      rw [one_mul]
                      exact lt_of_le_of_lt
                        (Nat.pow_le_pow_right (by norm_num) (by omega : st.writtenBits ≤ 31))
                        (by norm_num)
              simp only [encField, hv]
              rw [if_neg hg2, hsh]
              simp [normalizedOf, hv, rbits, payloadsOf, hb]
          | int v => simp [fieldOk, hv] at hok
          | buffer p => simp [fieldOk, hv] at hok
  | bytes name max bits =>
      cases hv : value.lookup name with
      | none => simp [fieldOk, hv] at hok
      | some v =>
          cases v with
          | buffer p =>
              simp only [rbits] at hwr
              simp only [normalizedOf, hv, rbits] at hnorm
              have hg2 : ¬(32 ≤ st.writtenBits) := by omega
              have hlen : p.length % 2 ^ 32 = p.length := by
                apply Nat.mod_eq_of_lt
                have hple : (2 : Nat) ^ bits ≤ 2 ^ 32 :=
                  Nat.pow_le_pow_right (by norm_num) (by omega)
                omega
              have hsh : (p.length <<< st.writtenBits) % 2 ^ 32 =
                  p.length <<< st.writtenBits := by
                apply Nat.mod_eq_of_lt
                rw [Nat.shiftLeft_eq]
                calc p.length * 2 ^ st.writtenBits
                    < 2 ^ bits * 2 ^ st.writtenBits :=
                      mul_lt_mul_of_pos_right hnorm (Nat.two_pow_pos _)
                  _ = 2 ^ (bits + st.writtenBits) := (pow_add 2 bits st.writtenBits).symm
                  _ ≤ 2 ^ 32 := Nat.pow_le_pow_right (by norm_num) (by omega)
              simp only [encField, hv]
              rw [if_neg hg2, hlen, hsh]
              simp [normalizedOf, hv, rbits, payloadsOf]
          | int v => simp [fieldOk, hv] at hok
          | boolean b => simp [fieldOk, hv] at hok

theorem encFields_spec {value : List (String × Value)} :
    ∀ (l : List RField) (st : EncState),
      valuesOk value l = true → (∀ f ∈ l, resolvedOk f) →
      st.writtenBits + totalBits l ≤ 31 →
      st.int < 2 ^ st.writtenBits → (∀ b ∈ st.bytes, b < 256) →
      (0 < st.int ∨ st.bytes.getLast? ≠ some 0) →
      ∃ st₂, encFields value l st = some st₂ ∧
        st₂.buffers = st.buffers ++ payloadsOf value l ∧
        encVal st₂ = encVal st + packN value l * 2 ^ encBits st ∧
        encBits st₂ = encBits st + totalBits l ∧
        st₂.int < 2 ^ st₂.writtenBits ∧
        (∀ b ∈ st₂.bytes, b < 256) ∧
        (0 < st₂.int ∨ st₂.bytes.getLast? ≠ some 0) := by
  intro l
  induction l with
  | nil =>
      intro st _ _ _ hbound hlt hnz
      exact ⟨st, rfl, by simp [payloadsOf], by simp [packN], by simp [totalBits], hbound, hlt, hnz⟩
  | cons f rest ih =>
      intro st hok hres hw hbound hlt hnz
      have hokf : fieldOk value f = true := by
        simp only [valuesOk, List.all_cons, Bool.and_eq_true] at hok
        exact hok.1
      have hokrest : valuesOk value rest = true := by
        simp only [valuesOk, List.all_cons, Bool.and_eq_true] at hok
        exact hok.2
      have hresf : resolvedOk f := hres f (by simp)
      have hnorm : normalizedOf value f < 2 ^ rbits f := normalizedOf_lt hresf hokf
      have hwrf : st.writtenBits + rbits f ≤ 31 := by
        rw [totalBits_cons] at hw
        omega
      set st₁ : EncState :=
        { st with
          int := st.int ||| (normalizedOf value f <<< st.writtenBits)
          writtenBits := st.writtenBits + rbits f
          buffers := st.buffers ++ payloadsOf value [f] } with hst₁
      have hint₁ : st₁.int = normalizedOf value f * 2 ^ st.writtenBits + st.int := by
        simp only [hst₁]
        exact lor_shiftLeft_eq_add hbound _
      have hbound₁ : st₁.int < 2 ^ st₁.writtenBits := by
        rw [hint₁]
        have h1 : normalizedOf value f * 2 ^ st.writtenBits + st.int <
            (normalizedOf value f + 1) * 2 ^ st.writtenBits := by
          have := hbound
          nlinarith [Nat.two_pow_pos st.writtenBits]
        have h2 : (normalizedOf value f + 1) * 2 ^ st.writtenBits ≤
            2 ^ rbits f * 2 ^ st.writtenBits :=
          Nat.mul_le_mul_right _ (by omega)
        have h3 : (2 : Nat) ^ rbits f * 2 ^ st.writtenBits = 2 ^ st₁.writtenBits := by
          rw [← pow_add]
          simp only [hst₁]
          congr 1
          omega
        omega
      have hnz₁ : 0 < st₁.int ∨ st₁.bytes.getLast? ≠ some 0 := by
        rcases hnz with h | h
        · left
          rw [hint₁]
          omega
        · right
          simpa [hst₁] using h
      have h31₁ : st₁.writtenBits ≤ 31 := hwrf
      have hflush := flushAux_spec st₁.writtenBits st₁ (by omega) h31₁ hbound₁
      obtain ⟨hfbuf, hfval, hfbits, hflt, hfbound', hfnz, -, hfwr⟩ := hflush
      set st₁' := flushAux st₁.writtenBits st₁ with hst₁'
      have hw' : st₁'.writtenBits + totalBits rest ≤ 31 := by
        have ha : st₁'.writtenBits ≤ st₁.writtenBits := hfwr
        have hb' : st₁.writtenBits = st.writtenBits + rbits f := rfl
        rw [totalBits_cons] at hw
        omega
      obtain ⟨st₂, henc, hbuf₂, hval₂, hbits₂, hbound₂, hlt₂, hnz₂⟩ :=
        ih st₁' hokrest (fun g hg => hres g (by simp [hg])) hw'
          hfbound' (hflt (by simpa [hst₁] using hlt)) (hfnz hnz₁)
      refine ⟨st₂, ?_, ?_, ?_, ?_, hbound₂, hlt₂, hnz₂⟩
      · rw [encFields, encField_spec st hresf hokf hwrf]
        exact henc
      · rw [hbuf₂, hfbuf]
        simp only [hst₁]
        show st.buffers ++ payloadsOf value [f] ++ payloadsOf value rest =
          st.buffers ++ payloadsOf value (f :: rest)
        rw [payloadsOf_cons value f rest, List.append_assoc]
      · rw [hval₂, hfval, hfbits]
        have hp : (2 : Nat) ^ st.writtenBits * 256 ^ st.bytes.length = 2 ^ encBits st := by
          rw [pow256_eq, ← pow_add, encBits]
          congr 1
          omega
        have hv₁ : encVal st₁ = encVal st + normalizedOf value f * 2 ^ encBits st := by
          simp only [encVal, hst₁]
          rw [lor_shiftLeft_eq_add hbound]
          rw [← hp]
          ring
        have hb₁ : encBits st₁ = encBits st + rbits f := by
          simp only [encBits, hst₁]
          omega
        rw [hv₁, hb₁, packN, pow_add]
        ring
      · rw [hbits₂, hfbits]
        have hb₁ : encBits st₁ = encBits st + rbits f := by
          simp only [encBits, hst₁]
          omega
        rw [hb₁, totalBits_cons]
        omega

theorem map_mod_256_eq_self {l : List Nat} (h : ∀ b ∈ l, b < 256) :
    l.map (· % 256) = l := by
  induction l with
  | nil => rfl
  | cons c l ih =>
      have hc : c < 256 := h c (by simp)
      simp only [List.map_cons, Nat.mod_eq_of_lt hc]
      rw [ih (fun b hb => h b (by simp [hb]))]

theorem insertLoop_append (buf : List Nat) :
    ∀ X Y : List Nat, insertLoop (X ++ Y) X.length buf = X ++ buf ++ Y := by
  induction buf with
  | nil => intro X Y; simp [insertLoop]
  | cons b bs ih =>
      intro X Y
      show insertLoop (listInsert (X ++ Y) X.length b) (X.length + 1) bs = X ++ (b :: bs) ++ Y
      have h1 : listInsert (X ++ Y) X.length b = (X ++ [b]) ++ Y := by
        simp [listInsert, List.take_left, List.drop_left]
      have h2 : X.length + 1 = (X ++ [b]).length := by simp
      rw [h1, h2, ih (X ++ [b]) Y]
      simp

theorem foldl_insertLoop (B : List Nat) :
    ∀ (ps : List (List Nat)) (rest : List Nat),
      ps.foldl (fun arr buf => insertLoop arr B.length buf) (B ++ rest) =
        B ++ ps.reverse.flatten ++ rest := by
  intro ps
  induction ps with
  | nil => intro rest; simp
  | cons p ps ih =>
      intro rest
      rw [List.foldl_cons, insertLoop_append p B rest,
        show B ++ p ++ rest = B ++ (p ++ rest) by simp, ih (p ++ rest)]
      simp

/-- Full characterisation of the encoder on a well-formed value mapping:
the output is the minimal little-endian representation of the packed
fixed-width bitstream (all trailing zero bytes dropped), followed by the
deferred payloads in reverse resolved order. -/
theorem to_buffer_spec (s : Schema) (value : List (String × Value))
    (hok : valuesOk value s.fields = true) (hres : ∀ f ∈ s.fields, resolvedOk f)
    (htb : totalBits s.fields ≤ 31) :
    to_buffer s value =
      some (natToLE (packN value s.fields) ++ (payloadsOf value s.fields).reverse.flatten) := by
  obtain ⟨st₂, henc, hbuf, hval, hbits, hbound, hlt, hnz⟩ :=
    encFields_spec s.fields ⟨0, 0, [], []⟩ hok hres
      (by show 0 + totalBits s.fields ≤ 31; omega) (by norm_num) (by simp) (by simp)
  have hwr₂ : st₂.writtenBits ≤ 31 := by
    have h := hbits
    simp [encBits] at h
    omega
  have hfin := finalFlushAux_spec st₂.writtenBits st₂ (by omega) hwr₂ hbound
  obtain ⟨hfbuf, hfval, hflt, hfbound', hfnz, hfpost⟩ := hfin
  set st' := finalFlushAux st₂.writtenBits st₂ with hst'
  have hzero : st'.int = 0 := by
    rcases hfpost with h | h
    · exact h
    · have := hfbound'
      rw [h] at this
      omega
  have hfrom : fromLE st'.bytes = packN value s.fields := by
    have h1 : encVal st' = packN value s.fields := by
      rw [hfval, hval]
      simp [encVal, encBits, fromLE]
    rw [encVal, hzero] at h1
    simpa using h1
  have hlt' : ∀ b ∈ st'.bytes, b < 256 := hflt hlt
  have hnz' : st'.bytes.getLast? ≠ some 0 := by
    rcases hfnz hnz with h | h
    · omega
    · exact h
  have hbytes : st'.bytes = natToLE (packN value s.fields) := by
    rw [← hfrom]
    exact eq_natToLE_of_fromLE hlt' hnz'
  have hbuf' : st'.buffers = payloadsOf value s.fields := by
    rw [hfbuf, hbuf]
    simp
  rw [to_buffer, henc]
  show some (st'.buffers.foldl (fun arr buf => insertLoop arr st'.bytes.length buf)
      (st'.bytes.map (· % 256))) = _
  rw [map_mod_256_eq_self hlt', hbuf', hbytes]
  have h := foldl_insertLoop (natToLE (packN value s.fields)) (payloadsOf value s.fields) []
  simp only [List.append_nil] at h
  rw [h]

/-! Decoder correctness on an encoder-shaped input. -/

/-- The payload the value mapping holds for a Bytes field (`[]` for any
other field or variant). -/
def bufferOf (value : List (String × Value)) : RField → List Nat
  | .bytes name _ _ =>
      match value.lookup name with
      | some (Value.buffer p) => p
      | _ => []
  | _ => []

/-- The value the decoder is expected to produce for a field: the bound
value from the mapping. -/
def expVal (value : List (String × Value)) (f : RField) : Value :=
  match value.lookup (rname f) with
  | some v => v
  | none => Value.int 0

theorem packN_append (value : List (String × Value)) (p q : List RField) :
    packN value (p ++ q) = packN value p + 2 ^ totalBits p * packN value q := by
  induction p with
  | nil => simp [packN, totalBits]
  | cons f p ih =>
      simp only [List.cons_append, List.append_eq, packN, ih, totalBits_cons, pow_add]
      ring

theorem packN_lt (value : List (String × Value)) :
    ∀ l : List RField, (∀ f ∈ l, normalizedOf value f < 2 ^ rbits f) →
      packN value l < 2 ^ totalBits l := by
  intro l
  induction l with
  | nil => simp [packN, totalBits]
  | cons f l ih =>
      intro h
      have h1 : normalizedOf value f < 2 ^ rbits f := h f (by simp)
      have h2 : packN value l < 2 ^ totalBits l := ih (fun g hg => h g (by simp [hg]))
      rw [packN, totalBits_cons, pow_add]
      nlinarith [Nat.two_pow_pos (rbits f), Nat.two_pow_pos (totalBits l)]

theorem topUpAux_ok (input : List Nat) (N R : Nat)
    (hbyte : ∀ i, i < R → input[i]? = some (N / 256 ^ i % 256)) :
    ∀ (fuel bits c rb idx : Nat),
      8 * idx = c + rb →
      c + bits ≤ 8 * R →
      bits ≤ rb + 8 * fuel →
      ∃ rb' idx',
        topUpAux input bits fuel (N / 2 ^ c % 2 ^ rb) rb idx =
          some (N / 2 ^ c % 2 ^ rb', rb', idx') ∧
        bits ≤ rb' ∧ 8 * idx' = c + rb' := by
  intro fuel
  induction fuel with
  | zero =>
      intro bits c rb idx hidx hcb hfuel
      exact ⟨rb, idx, rfl, by omega, hidx⟩
  | succ fuel ih =>
      intro bits c rb idx hidx hcb hfuel
      by_cases hlt : rb < bits
      · have hidxR : idx < R := by omega
        have hb := hbyte idx hidxR
        have hbv : N / 256 ^ idx % 256 = N / 2 ^ c / 2 ^ rb % 256 := by
          rw [Nat.div_div_eq_div_mul, ← pow_add]
          rw [show (256 : Nat) ^ idx = 2 ^ (8 * idx) from pow256_eq idx, hidx]
        have hstep : (N / 2 ^ c % 2 ^ rb) ||| ((N / 256 ^ idx % 256) <<< rb) =
            N / 2 ^ c % 2 ^ (rb + 8) := by
          rw [hbv]
          exact mod_lor_next_byte (N / 2 ^ c) rb
        have hred : topUpAux input bits (fuel + 1) (N / 2 ^ c % 2 ^ rb) rb idx =
            topUpAux input bits fuel (N / 2 ^ c % 2 ^ (rb + 8)) (rb + 8) (idx + 1) := by
          rw [topUpAux, if_pos hlt, hb]
          show topUpAux input bits fuel ((N / 2 ^ c % 2 ^ rb) ||| ((N / 256 ^ idx % 256) <<< rb))
            (rb + 8) (idx + 1) = _
          rw [hstep]
        rw [hred]
        exact ih bits c (rb + 8) (idx + 1) (by omega) hcb (by omega)
      · rw [topUpAux, if_neg hlt]
        exact ⟨rb, idx, rfl, by omega, hidx⟩

theorem decFields_int_ap (buffer : List Nat) (rest : List RField) (int rb idx : Nat)
    (acc : List (String × Value)) (name : String) (min max : Int) (bits : Nat) :
    decFields buffer (RField.int name min max bits true :: rest) int rb idx acc =
      decFields buffer rest int rb idx ((name, Value.int min) :: acc) := by
  simp [decFields]

theorem decFields_int_nap (buffer : List Nat) (rest : List RField) (int rb idx : Nat)
    (acc : List (String × Value)) (name : String) (min max : Int) (bits : Nat)
    {i' rb' idx' : Nat} (h : topUpAux buffer bits bits int rb idx = some (i', rb', idx')) :
    decFields buffer (RField.int name min max bits false :: rest) int rb idx acc =
      decFields buffer rest (i' / 2 ^ bits) (rb' - bits) idx'
        ((name, Value.int ((i' % 2 ^ bits : Nat) + min)) :: acc) := by
  simp [decFields, h]

theorem decFields_boolean_red (buffer : List Nat) (rest : List RField) (int rb idx : Nat)
    (acc : List (String × Value)) (name : String) (bits : Nat)
    {i' rb' idx' : Nat} (h : topUpAux buffer bits bits int rb idx = some (i', rb', idx')) :
    decFields buffer (RField.boolean name bits :: rest) int rb idx acc =
      decFields buffer rest (i' / 2) (rb' - 1) idx'
        ((name, Value.boolean (i' % 2 == 1)) :: acc) := by
  simp [decFields, h]

theorem decFields_bytes_red (buffer : List Nat) (rest : List RField) (int rb idx : Nat)
    (acc : List (String × Value)) (name : String) (max : Int) (bits : Nat)
    {i' rb' idx' : Nat} (h : topUpAux buffer bits bits int rb idx = some (i', rb', idx'))
    (hle : i' % 2 ^ bits ≤ buffer.length) :
    decFields buffer (RField.bytes name max bits :: rest) int rb idx acc =
      decFields buffer rest (i' / 2 ^ bits) (rb' - bits) idx'
        ((name, Value.buffer (buffer.drop (buffer.length - i' % 2 ^ bits))) :: acc) := by
  simp [decFields, h, hle]

theorem entries_cons_reverse (value : List (String × Value)) (f : RField)
    (rest : List RField) (acc : List (String × Value)) (w : Value)
    (hw : expVal value f = w) :
    ((f :: rest).map (fun g => (rname g, expVal value g))).reverse ++ acc =
      (rest.map (fun g => (rname g, expVal value g))).reverse ++ ((rname f, w) :: acc) := by
  simp [hw, List.append_assoc]

theorem decFields_ok (value : List (String × Value)) (input P : List Nat) (N R : Nat)
    (hbyte : ∀ i, i < R → input[i]? = some (N / 256 ^ i % 256))
    (hlenP : input.length = R + P.length)
    (hdrop : input.drop R = P) :
    ∀ (rs : List RField) (c rb idx : Nat) (acc : List (String × Value)),
      (∀ f ∈ rs, resolvedOk f) → valuesOk value rs = true →
      (∀ f ∈ rs, isBytesR f = true → bufferOf value f = P) →
      8 * idx = c + rb →
      c + totalBits rs ≤ 8 * R →
      N / 2 ^ c = packN value rs →
      decFields input rs (N / 2 ^ c % 2 ^ rb) rb idx acc =
        some ((rs.map (fun f => (rname f, expVal value f))).reverse ++ acc) := by
  intro rs
  induction rs with
  | nil =>
      intro c rb idx acc _ _ _ _ _ _
      simp [decFields]
  | cons f rest ih =>
      intro c rb idx acc hres hok hpay hidx hcb hN
      have hresf : resolvedOk f := hres f (by simp)
      have hokf : fieldOk value f = true := by
        simp only [valuesOk, List.all_cons, Bool.and_eq_true] at hok
        exact hok.1
      have hokrest : valuesOk value rest = true := by
        simp only [valuesOk, List.all_cons, Bool.and_eq_true] at hok
        exact hok.2
      have hresrest : ∀ g ∈ rest, resolvedOk g := fun g hg => hres g (by simp [hg])
      have hpayrest : ∀ g ∈ rest, isBytesR g = true → bufferOf value g = P :=
        fun g hg => hpay g (by simp [hg])
      have hnorm : normalizedOf value f < 2 ^ rbits f := normalizedOf_lt hresf hokf
      have hx : N / 2 ^ c = normalizedOf value f + 2 ^ rbits f * packN value rest := by
        rw [hN, packN]
      have hM : N / 2 ^ (c + rbits f) = packN value rest := by
        rw [pow_add, ← Nat.div_div_eq_div_mul, hx]
        rw [Nat.add_mul_div_left _ _ (Nat.two_pow_pos (rbits f))]
        rw [Nat.div_eq_of_lt hnorm]
        omega
      have hval_f : N / 2 ^ c % 2 ^ rbits f = normalizedOf value f := by
        rw [hx, Nat.add_mul_mod_self_left, Nat.mod_eq_of_lt hnorm]
      have hcb' : c + rbits f + totalBits rest ≤ 8 * R := by
        rw [totalBits_cons] at hcb
        omega
      cases f with
      | int name min max bits ap =>
          obtain ⟨hbits, hap⟩ := hresf
          have hlook : ∃ v : Int, value.lookup name = some (Value.int v) ∧ min ≤ v ∧ v ≤ max := by
            cases hv : value.lookup name with
            | none => simp [fieldOk, hv] at hokf
            | some v =>
                cases v with
                | int v =>
                    simp only [fieldOk, hv, Bool.and_eq_true, decide_eq_true_eq] at hokf
                    exact ⟨v, rfl, hokf.1, hokf.2⟩
                | boolean b => simp [fieldOk, hv] at hokf
                | buffer p => simp [fieldOk, hv] at hokf
          obtain ⟨v, hv, hminv, hvmax⟩ := hlook
          have hexp : expVal value (RField.int name min max bits ap) = Value.int v := by
            simp [expVal, rname, hv]
          cases hapv : ap with
          | true =>
              subst hapv
              have hb0 : bits = 0 := hap.1 rfl
              have hvmin : v = min := by
                have h1 : clog2 (max - min + 1).toNat = 0 := by rw [← hbits, hb0]
                have h2 : (max - min + 1).toNat ≤ 1 := clog2_eq_zero_iff.1 h1
                omega
              have hnorm0 : normalizedOf value (RField.int name min max bits true) = 0 := by
                simp only [normalizedOf, hv]
                omega
              have hNrest : N / 2 ^ c = packN value rest := by
                rw [hx, hnorm0]
                show 0 + 2 ^ rbits (RField.int name min max bits true) * packN value rest = _
                simp [rbits, hb0]
              rw [decFields_int_ap]
              rw [ih c rb idx ((name, Value.int min) :: acc) hresrest hokrest hpayrest hidx
                (by rw [totalBits_cons] at hcb; simp only [rbits, hb0] at hcb; omega) hNrest]
              refine (congrArg some (entries_cons_reverse value
                (RField.int name min max bits true) rest acc (Value.int min) ?_)).symm
              rw [hexp, hvmin]
          | false =>
              subst hapv
              have hcbits : c + bits ≤ 8 * R := by
                rw [totalBits_cons] at hcb
                simp only [rbits] at hcb
                omega
              obtain ⟨rb', idx', htop, hble, hidx'⟩ :=
                topUpAux_ok input N R hbyte bits bits c rb idx hidx hcbits (by omega)
              rw [decFields_int_nap input rest _ _ _ acc name min max bits htop]
              have hval : N / 2 ^ c % 2 ^ rb' % 2 ^ bits =
                  normalizedOf value (RField.int name min max bits false) := by
                rw [mod_pow_mod hble]
                exact hval_f
              have hnewint : N / 2 ^ c % 2 ^ rb' / 2 ^ bits =
                  N / 2 ^ (c + bits) % 2 ^ (rb' - bits) := by
                rw [mod_pow_div hble, pow_add, ← Nat.div_div_eq_div_mul]
              have hdecv : ((N / 2 ^ c % 2 ^ rb' % 2 ^ bits : Nat) : Int) + min = v := by
                rw [hval]
                simp only [normalizedOf, hv]
                omega
              rw [hnewint]
              have hm : N / 2 ^ (c + rbits (RField.int name min max bits false)) =
                  packN value rest := hM
              simp only [rbits] at hm
              rw [ih (c + bits) (rb' - bits) idx'
                ((name, Value.int ((N / 2 ^ c % 2 ^ rb' % 2 ^ bits : Nat) + min)) :: acc)
                hresrest hokrest hpayrest (by omega)
                (by rw [totalBits_cons] at hcb; simp only [rbits] at hcb; omega) hm]
              refine (congrArg some (entries_cons_reverse value
                (RField.int name min max bits false) rest acc
                (Value.int ((N / 2 ^ c % 2 ^ rb' % 2 ^ bits : Nat) + min)) ?_)).symm
              rw [hexp, ← hdecv]
      | boolean name bits =>
          have hb1 : bits = 1 := hresf
          have hlook : ∃ b : Bool, value.lookup name = some (Value.boolean b) := by
            cases hv : value.lookup name with
            | none => simp [fieldOk, hv] at hokf
            | some v =>
                cases v with
                | boolean b => exact ⟨b, rfl⟩
                | int v => simp [fieldOk, hv] at hokf
                | buffer p => simp [fieldOk, hv] at hokf
          obtain ⟨b, hv⟩ := hlook
          have hexp : expVal value (RField.boolean name bits) = Value.boolean b := by
            simp [expVal, rname, hv]
          have hcbits : c + bits ≤ 8 * R := by
            rw [totalBits_cons] at hcb
            simp only [rbits] at hcb
            omega
          obtain ⟨rb', idx', htop, hble, hidx'⟩ :=
            topUpAux_ok input N R hbyte bits bits c rb idx hidx hcbits (by omega)
          rw [decFields_boolean_red input rest _ _ _ acc name bits htop]
          have hval : N / 2 ^ c % 2 ^ rb' % 2 =
              normalizedOf value (RField.boolean name bits) := by
            have h1 : N / 2 ^ c % 2 ^ rb' % 2 ^ 1 = N / 2 ^ c % 2 ^ 1 :=
              mod_pow_mod (by omega)
            have h2 := hval_f
            simp only [rbits, hb1] at h2
            calc N / 2 ^ c % 2 ^ rb' % 2 = N / 2 ^ c % 2 ^ rb' % 2 ^ 1 := by rw [pow_one]
              _ = N / 2 ^ c % 2 ^ 1 := h1
              _ = normalizedOf value (RField.boolean name bits) := h2
          have hnewint : N / 2 ^ c % 2 ^ rb' / 2 = N / 2 ^ (c + 1) % 2 ^ (rb' - 1) := by
            calc N / 2 ^ c % 2 ^ rb' / 2 = N / 2 ^ c % 2 ^ rb' / 2 ^ 1 := by rw [pow_one]
              _ = N / 2 ^ c / 2 ^ 1 % 2 ^ (rb' - 1) := mod_pow_div (by omega)
              _ = N / 2 ^ (c + 1) % 2 ^ (rb' - 1) := by
                    rw [pow_add, ← Nat.div_div_eq_div_mul]
          have hdecb : (N / 2 ^ c % 2 ^ rb' % 2 == 1) = b := by
            rw [hval]
            simp only [normalizedOf, hv]
            cases b <;> simp
          have hm : N / 2 ^ (c + 1) = packN value rest := by
            have := hM
            simp only [rbits, hb1] at this
            exact this
          rw [hnewint, hdecb]
          rw [ih (c + 1) (rb' - 1) idx' ((name, Value.boolean b) :: acc)
            hresrest hokrest hpayrest (by omega)
            (by rw [totalBits_cons] at hcb; simp only [rbits, hb1] at hcb; omega) hm]
          refine (congrArg some (entries_cons_reverse value
            (RField.boolean name bits) rest acc (Value.boolean b) ?_)).symm
          rw [hexp]
      | bytes name max bits =>
          have hlook : ∃ p : List Nat, value.lookup name = some (Value.buffer p) := by
            cases hv : value.lookup name with
            | none => simp [fieldOk, hv] at hokf
            | some v =>
                cases v with
                | buffer p => exact ⟨p, rfl⟩
                | int v => simp [fieldOk, hv] at hokf
                | boolean b => simp [fieldOk, hv] at hokf
          obtain ⟨p, hv⟩ := hlook
          have hexp : expVal value (RField.bytes name max bits) = Value.buffer p := by
            simp [expVal, rname, hv]
          have hpP : p = P := by
            have h := hpay (RField.bytes name max bits) (by simp) (by simp [isBytesR])
            simpa [bufferOf, hv] using h
          have hcbits : c + bits ≤ 8 * R := by
            rw [totalBits_cons] at hcb
            simp only [rbits] at hcb
            omega
          obtain ⟨rb', idx', htop, hble, hidx'⟩ :=
            topUpAux_ok input N R hbyte bits bits c rb idx hidx hcbits (by omega)
          have hval : N / 2 ^ c % 2 ^ rb' % 2 ^ bits = P.length := by
            rw [mod_pow_mod hble]
            have h := hval_f
            simp only [rbits] at h
            rw [h]
            simp only [normalizedOf, hv]
            rw [hpP]
          have hle : N / 2 ^ c % 2 ^ rb' % 2 ^ bits ≤ input.length := by
            rw [hval]
            omega
          rw [decFields_bytes_red input rest _ _ _ acc name max bits htop hle]
          have hslice : input.drop (input.length - N / 2 ^ c % 2 ^ rb' % 2 ^ bits) = P := by
            rw [hval, hlenP]
            rw [show R + P.length - P.length = R by omega]
            exact hdrop
          have hnewint : N / 2 ^ c % 2 ^ rb' / 2 ^ bits =
              N / 2 ^ (c + bits) % 2 ^ (rb' - bits) := by
            rw [mod_pow_div hble, pow_add, ← Nat.div_div_eq_div_mul]
          have hm : N / 2 ^ (c + bits) = packN value rest := by
            have := hM
            simp only [rbits] at this
            exact this
          rw [hslice, hnewint]
          rw [ih (c + bits) (rb' - bits) idx' ((name, Value.buffer P) :: acc)
            hresrest hokrest hpayrest (by omega)
            (by rw [totalBits_cons] at hcb; simp only [rbits] at hcb; omega) hm]
          refine (congrArg some (entries_cons_reverse value
            (RField.bytes name max bits) rest acc (Value.buffer P) ?_)).symm
          rw [hexp, hpP]

theorem payloadsOf_eq_nil {value : List (String × Value)} :
    ∀ {l : List RField}, (∀ f ∈ l, isBytesR f = false) → payloadsOf value l = [] := by
  intro l
  induction l with
  | nil => intro _; rfl
  | cons g t ih =>
      intro h
      rw [payloadsOf_cons]
      have hg : isBytesR g = false := h g (by simp)
      have h1 : payloadsOf value [g] = [] := by
        cases g with
        | int name min max bits ap => rfl
        | boolean name bits => rfl
        | bytes name max bits => simp [isBytesR] at hg
      rw [h1, ih (fun f hf => h f (by simp [hf]))]
      rfl

theorem payloads_single {value : List (String × Value)} :
    ∀ {l : List RField}, valuesOk value l = true →
      (l.filter isBytesR).length ≤ 1 →
      ∀ f ∈ l, isBytesR f = true →
        (payloadsOf value l).reverse.flatten = bufferOf value f := by
  intro l
  induction l with
  | nil => intro _ _ f hf; simp at hf
  | cons g t ih =>
      intro hok hsingle f hf hfb
      have hokg : fieldOk value g = true := by
        simp only [valuesOk, List.all_cons, Bool.and_eq_true] at hok
        exact hok.1
      have hokt : valuesOk value t = true := by
        simp only [valuesOk, List.all_cons, Bool.and_eq_true] at hok
        exact hok.2
      by_cases hg : isBytesR g = true
      · have hflt : (g :: t).filter isBytesR = g :: t.filter isBytesR := by
          simp [List.filter_cons, hg]
        rw [hflt] at hsingle
        simp only [List.length_cons] at hsingle
        have htnil : t.filter isBytesR = [] := List.length_eq_zero.1 (by omega)
        have htnone : ∀ h ∈ t, isBytesR h = false := by
          intro h hh
          by_contra hc
          have : h ∈ t.filter isBytesR := List.mem_filter.2 ⟨hh, by simpa using hc⟩
          rw [htnil] at this
          simp at this
        have hfg : f = g := by
          rcases List.mem_cons.1 hf with h | h
          · exact h
          · exact absurd hfb (by simp [htnone f h])
        subst hfg
        cases f with
        | bytes name max bits =>
            have hlook : ∃ p : List Nat, value.lookup name = some (Value.buffer p) := by
              cases hv : value.lookup name with
              | none => simp [fieldOk, hv] at hokg
              | some v =>
                  cases v with
                  | buffer p => exact ⟨p, rfl⟩
                  | int v => simp [fieldOk, hv] at hokg
                  | boolean b => simp [fieldOk, hv] at hokg
            obtain ⟨p, hv⟩ := hlook
            rw [payloadsOf_cons, payloadsOf_eq_nil htnone]
            simp [payloadsOf, hv, bufferOf]
        | int name min max bits ap => simp [isBytesR] at hg
        | boolean name bits => simp [isBytesR] at hg
      · have hg' : isBytesR g = false := by simpa using hg
        have hflt : (g :: t).filter isBytesR = t.filter isBytesR := by
          simp [List.filter_cons, hg']
        rw [hflt] at hsingle
        have hft : f ∈ t := by
          rcases List.mem_cons.1 hf with h | h
          · subst h; exact absurd hfb (by simp [hg'])
          · exact h
        have h1 : payloadsOf value [g] = [] := by
          cases g with
          | int name min max bits ap => rfl
          | boolean name bits => rfl
          | bytes name max bits => simp [isBytesR] at hg'
        rw [payloadsOf_cons, h1]
        simpa using ih hokt hsingle f hft hfb

/-- Decoding the encoder-shaped input succeeds and yields exactly the
expected name/value entries, provided all of the decoder's structural
demands are met. -/
theorem from_buffer_ok (s : Schema) (value : List (String × Value))
    (hres : ∀ f ∈ s.fields, resolvedOk f)
    (hok : valuesOk value s.fields = true)
    (hsingle : (s.fields.filter isBytesR).length ≤ 1)
    (hpos : 0 < totalBits s.fields)
    (hlen : (natToLE (packN value s.fields)).length = (totalBits s.fields + 7) / 8) :
    from_buffer s
        (natToLE (packN value s.fields) ++ (payloadsOf value s.fields).reverse.flatten) =
      some ((s.fields.map (fun f => (rname f, expVal value f))).reverse) := by
  set N := packN value s.fields with hN
  set R := (natToLE N).length with hR
  set P := (payloadsOf value s.fields).reverse.flatten with hP
  have hRpos : 0 < R := by
    rw [hlen]
    omega
  have hbyte : ∀ i, i < R → (natToLE N ++ P)[i]? = some (N / 256 ^ i % 256) := by
    intro i hi
    rw [List.getElem?_append_left hi, List.getElem?_eq_getElem hi, natToLE_getElem i hi]
  have hlenP : (natToLE N ++ P).length = R + P.length := by simp [hR]
  have hdrop : (natToLE N ++ P).drop R = P := List.drop_left' hR.symm
  have hpay : ∀ f ∈ s.fields, isBytesR f = true → bufferOf value f = P := by
    intro f hf hfb
    exact (payloads_single hok hsingle f hf hfb).symm
  have hb0 : (natToLE N ++ P)[0]? = some (N / 2 ^ 0 % 2 ^ 8) := by
    rw [hbyte 0 hRpos]
    norm_num
  rw [from_buffer, hb0]
  have h := decFields_ok value (natToLE N ++ P) P N R hbyte hlenP hdrop s.fields 0 8 1 []
    hres hok hpay (by omega) (by rw [hlen]; omega) (by simp)
  simpa using h

/-! Association-list lookup facts used to read off the round trip. -/

theorem lookup_eq_none_of_keys {L : List (String × Value)} {k : String}
    (h : ∀ kv ∈ L, kv.1 ≠ k) : L.lookup k = none := by
  induction L with
  | nil => rfl
  | cons kv t ih =>
      obtain ⟨a, b⟩ := kv
      have ha : (k == a) = false := by
        have := h (a, b) (by simp)
        simp only [ne_eq] at this
        simp [List.lookup]
        intro hk
        exact absurd hk.symm this
      show List.lookup k ((a, b) :: t) = none
      simp only [List.lookup, ha]
      exact ih fun kv hkv => h kv (by simp [hkv])

theorem lookup_append_left {L₁ L₂ : List (String × Value)} {k : String} {v : Value}
    (h : L₁.lookup k = some v) : (L₁ ++ L₂).lookup k = some v := by
  induction L₁ with
  | nil => simp [List.lookup] at h
  | cons kv t ih =>
      obtain ⟨a, b⟩ := kv
      show List.lookup k ((a, b) :: (t ++ L₂)) = some v
      simp only [List.lookup] at h ⊢
      cases hk : (k == a) with
      | true => rw [hk] at h; exact h
      | false => rw [hk] at h; exact ih h

theorem lookup_append_right {L₁ L₂ : List (String × Value)} {k : String}
    (h : L₁.lookup k = none) : (L₁ ++ L₂).lookup k = L₂.lookup k := by
  induction L₁ with
  | nil => rfl
  | cons kv t ih =>
      obtain ⟨a, b⟩ := kv
      show List.lookup k ((a, b) :: (t ++ L₂)) = L₂.lookup k
      simp only [List.lookup] at h ⊢
      cases hk : (k == a) with
      | true => rw [hk] at h; exact absurd h (by simp)
      | false => rw [hk] at h; exact ih h

theorem entries_lookup {value : List (String × Value)} :
    ∀ l : List RField, (l.map rname).Nodup → ∀ f ∈ l,
      ((l.map (fun g => (rname g, expVal value g))).reverse).lookup (rname f) =
        some (expVal value f) := by
  intro l
  induction l with
  | nil => intro _ f hf; simp at hf
  | cons g t ih =>
      intro hnodup f hf
      have hnodup' := hnodup
      rw [List.map_cons, List.nodup_cons] at hnodup'
      obtain ⟨hgnot, htnodup⟩ := hnodup'
      have hrev : ((g :: t).map (fun h => (rname h, expVal value h))).reverse =
          (t.map (fun h => (rname h, expVal value h))).reverse ++
            [(rname g, expVal value g)] := by
        simp
      rw [hrev]
      rcases List.mem_cons.1 hf with hfg | hft
      · subst hfg
        have hnone : ((t.map (fun h => (rname h, expVal value h))).reverse).lookup (rname f)
            = none := by
          apply lookup_eq_none_of_keys
          intro kv hkv
          rw [List.mem_reverse] at hkv
          rcases List.mem_map.1 hkv with ⟨h', hh', rfl⟩
          intro hcon
          exact hgnot (by rw [← hcon]; exact List.mem_map_of_mem rname hh')
        rw [lookup_append_right hnone]
        simp [List.lookup]
      · have hsome := ih htnodup f hft
        exact lookup_append_left hsome

/-! Decoder underrun: a successful decode accounts for at least
`totalBits` bits of input. -/

theorem topUpAux_post {input : List Nat} {bits : Nat} :
    ∀ (fuel int rb idx : Nat) {i' rb' idx' : Nat},
      bits ≤ rb + 8 * fuel →
      topUpAux input bits fuel int rb idx = some (i', rb', idx') →
      bits ≤ rb' ∧ 8 * idx' + rb = 8 * idx + rb' ∧
        (idx ≤ input.length → idx' ≤ input.length) := by
  intro fuel
  induction fuel with
  | zero =>
      intro int rb idx i' rb' idx' hfuel heq
      simp only [topUpAux, Option.some.injEq, Prod.mk.injEq] at heq
      obtain ⟨-, h2, h3⟩ := heq
      subst h2
      subst h3
      exact ⟨by omega, by omega, fun h => h⟩
  | succ fuel ih =>
      intro int rb idx i' rb' idx' hfuel heq
      by_cases hlt : rb < bits
      · rw [topUpAux, if_pos hlt] at heq
        cases hb : input[idx]? with
        | none => rw [hb] at heq; simp at heq
        | some b =>
            rw [hb] at heq
            have hidxlt : idx < input.length := by
              by_contra hc
              rw [List.getElem?_eq_none (by omega)] at hb
              simp at hb
            have h := ih _ (rb + 8) (idx + 1) (by omega) heq
            exact ⟨h.1, by omega, fun _ => h.2.2 (by omega)⟩
      · rw [topUpAux, if_neg hlt] at heq
        simp only [Option.some.injEq, Prod.mk.injEq] at heq
        obtain ⟨-, h2, h3⟩ := heq
        subst h2
        subst h3
        exact ⟨by omega, by omega, fun h => h⟩

theorem decFields_bound {input : List Nat} :
    ∀ (rs : List RField) (int rb idx : Nat) (acc : List (String × Value))
      {out : List (String × Value)},
      (∀ f ∈ rs, resolvedOk f) →
      idx ≤ input.length →
      decFields input rs int rb idx acc = some out →
      8 * idx + totalBits rs ≤ 8 * input.length + rb := by
  intro rs
  induction rs with
  | nil =>
      intro int rb idx acc out _ hidx _
      simp only [totalBits, List.map_nil, List.sum_nil]
      omega
  | cons f rest ih =>
      intro int rb idx acc out hres hidxlen heq
      have hresf : resolvedOk f := hres f (by simp)
      have hresrest : ∀ g ∈ rest, resolvedOk g := fun g hg => hres g (by simp [hg])
      rw [totalBits_cons]
      cases f with
      | int name min max bits ap =>
          cases hapv : ap with
          | true =>
              subst hapv
              have hb0 : bits = 0 := hresf.2.1 rfl
              rw [decFields_int_ap] at heq
              have := ih _ rb idx _ hresrest hidxlen heq
              simp only [rbits, hb0]
              omega
          | false =>
              subst hapv
              rw [decFields] at heq
              simp only [Bool.false_eq_true, if_false] at heq
              cases htop : topUpAux input bits bits int rb idx with
              | none => rw [htop] at heq; simp at heq
              | some t =>
                  obtain ⟨i', rb', idx'⟩ := t
                  rw [htop] at heq
                  obtain ⟨hble, hcons, hidx'⟩ := topUpAux_post bits int rb idx (by omega) htop
                  have := ih _ (rb' - bits) idx' _ hresrest (hidx' hidxlen) heq
                  simp only [rbits]
                  omega
      | boolean name bits =>
          have hb1 : bits = 1 := hresf
          rw [decFields] at heq
          cases htop : topUpAux input bits bits int rb idx with
          | none => rw [htop] at heq; simp at heq
          | some t =>
              obtain ⟨i', rb', idx'⟩ := t
              rw [htop] at heq
              obtain ⟨hble, hcons, hidx'⟩ := topUpAux_post bits int rb idx (by omega) htop
              have := ih _ (rb' - 1) idx' _ hresrest (hidx' hidxlen) heq
              simp only [rbits]
              omega
      | bytes name max bits =>
          cases htop : topUpAux input bits bits int rb idx with
          | none => simp [decFields, htop] at heq
          | some t =>
              obtain ⟨i', rb', idx'⟩ := t
              by_cases hle : i' % 2 ^ bits ≤ input.length
              · rw [decFields_bytes_red input rest int rb idx acc name max bits htop hle] at heq
                obtain ⟨hble, hcons, hidx'⟩ := topUpAux_post bits int rb idx (by omega) htop
                have := ih _ (rb' - bits) idx' _ hresrest (hidx' hidxlen) heq
                simp only [rbits]
                omega
              · rw [decFields] at heq
                rw [htop] at heq
                simp [hle] at heq

/-- A decode that succeeds has an input at least as long as the
fixed-width region. -/
theorem from_buffer_short (s : Schema) (buffer : List Nat)
    (hres : ∀ f ∈ s.fields, resolvedOk f)
    (hshort : buffer.length < (totalBits s.fields + 7) / 8) :
    from_buffer s buffer = none := by
  cases hout : from_buffer s buffer with
  | none => rfl
  | some out =>
      exfalso
      rw [from_buffer] at hout
      cases hb : buffer[0]? with
      | none => rw [hb] at hout; simp at hout
      | some b0 =>
          rw [hb] at hout
          have hlen : 0 < buffer.length := by
            by_contra hc
            have : buffer = [] := by
              cases buffer with
              | nil => rfl
              | cons x t => simp at hc
            rw [this] at hb
            simp at hb
          have := decFields_bound s.fields b0 8 1 [] hres (by omega) hout
          omega

theorem expVal_lookup {value : List (String × Value)} {f : RField}
    (hok : fieldOk value f = true) :
    some (expVal value f) = value.lookup (rname f) := by
  cases f with
  | int name min max bits ap =>
      cases hv : value.lookup name with
      | none => simp [fieldOk, hv] at hok
      | some v => simp [expVal, rname, hv]
  | boolean name bits =>
      cases hv : value.lookup name with
      | none => simp [fieldOk, hv] at hok
      | some v => simp [expVal, rname, hv]
  | bytes name max bits =>
      cases hv : value.lookup name with
      | none => simp [fieldOk, hv] at hok
      | some v => simp [expVal, rname, hv]

/-! The claims. -/

/-- C1, counterexample: the schema with the single Int field `x:[0,1]`
and the in-range mapping `x ↦ 0` round-trips to a failure: the encoder
emits the empty byte sequence (the trailing zero byte is dropped) and the
decoder panics on the empty input, so `from_buffer (to_buffer v)` does
not reproduce the field values. -/
theorem c1_roundtrip_counterexample :
    valuesOk [("x", Value.int 0)] (construct [FieldSpec.int "x" 0 1]).fields = true ∧
    to_buffer (construct [FieldSpec.int "x" 0 1]) [("x", Value.int 0)] = some [] ∧
    ((to_buffer (construct [FieldSpec.int "x" 0 1]) [("x", Value.int 0)]).bind
      (from_buffer (construct [FieldSpec.int "x" 0 1]))) = none := by
  refine ⟨by decide, rfl, rfl⟩

/-- C1, amended: the round trip reproduces every field's value provided,
in addition to the claim's range conditions, that (i) the field names are
distinct, (ii) the schema has at most one Bytes field (the decoder's
trailing-payload addressing is only correct then), (iii) the fixed-width
region is nonempty, (iv) the encoder drops no trailing zero byte
(its minimal little-endian output has the full `ceil(totalBits/8)`
length), and (v) every span is at most `2^16` and the total bit count at
most 31 — the domain on which the embedding's exact models of the
source's `f32` logarithm and `i32` accumulator are provably faithful
(see the module comment). -/
theorem c1_roundtrip_amended (fs : List FieldSpec) (value : List (String × Value))
    (hok : valuesOk value (construct fs).fields = true)
    (hsmall : fs.all smallSpan = true)
    (htb : totalBits (construct fs).fields ≤ 31)
    (hnodup : ((construct fs).fields.map rname).Nodup)
    (hsingle : ((construct fs).fields.filter isBytesR).length ≤ 1)
    (hpos : 0 < totalBits (construct fs).fields)
    (hlen : (natToLE (packN value (construct fs).fields)).length =
      (totalBits (construct fs).fields + 7) / 8) :
    ∃ out dec, to_buffer (construct fs) value = some out ∧
      from_buffer (construct fs) out = some dec ∧
      ∀ f ∈ (construct fs).fields, dec.lookup (rname f) = value.lookup (rname f) := by
  have hres := construct_resolvedOk fs
  refine ⟨_, _, to_buffer_spec (construct fs) value hok hres htb,
    from_buffer_ok (construct fs) value hres hok hsingle hpos hlen, ?_⟩
  intro f hf
  rw [entries_lookup (construct fs).fields hnodup f hf]
  have hokf : fieldOk value f = true := by
    simp only [valuesOk, List.all_eq_true] at hok
    exact hok f hf
  exact expVal_lookup hokf

/-- C1, witness for the amended round trip at the schema `x:[0,2]` with
`x ↦ 2`. -/
theorem c1_roundtrip_witness :
    valuesOk [("x", Value.int 2)] (construct [FieldSpec.int "x" 0 2]).fields = true ∧
    [FieldSpec.int "x" 0 2].all smallSpan = true ∧
    totalBits (construct [FieldSpec.int "x" 0 2]).fields ≤ 31 ∧
    0 < totalBits (construct [FieldSpec.int "x" 0 2]).fields ∧
    ∃ out dec,
      to_buffer (construct [FieldSpec.int "x" 0 2]) [("x", Value.int 2)] = some out ∧
      from_buffer (construct [FieldSpec.int "x" 0 2]) out = some dec ∧
      ∀ f ∈ (construct [FieldSpec.int "x" 0 2]).fields,
        dec.lookup (rname f) = [("x", Value.int 2)].lookup (rname f) :=
  ⟨by decide, by decide, by decide, by decide,
    c1_roundtrip_amended [FieldSpec.int "x" 0 2] [("x", Value.int 2)]
      (by decide) (by decide) (by decide) (by decide) (by decide) (by decide) (by decide)⟩

/-- C3: the resolved field list is exactly the non-Bytes fields in
declaration order followed by the Bytes fields in declaration order:
every Bytes field appears after every Int/Boolean field, and each group
retains its declaration order.  (The comparator is inconsistent as an
`Ordering`, but the `is_less` predicate Rust's stable sort actually
consumes is a strict weak order keyed on being a Bytes field, so every
stable sort yields this keyed stable sort; see the module comment.) -/
theorem c3_ordering_law (fs : List FieldSpec) :
    (construct fs).fields =
      (fs.map resolveField).filter (fun f => !isBytesR f) ++
        (fs.map resolveField).filter isBytesR :=
  construct_fields fs

/-- C4, counterexample: for the always-present field `x:[5,5]`,
`to_buffer` does NOT succeed when the name is absent from the value
mapping — the unconditional `unwrap` of the lookup panics. -/
theorem c4_always_present_counterexample :
    to_buffer (construct [FieldSpec.int "x" 5 5]) [] = none := by
  rfl

/-- C4, amended: the always-present field must be present in the value
mapping; with it present the encoder emits zero bits (empty output for
this schema), and the decoder returns `Int(min)` for the field without
consuming anything — it does demand a nonempty input, but its result is
the same for every nonempty input. -/
theorem c4_always_present_amended (buf : List Nat) (hne : buf ≠ []) :
    to_buffer (construct [FieldSpec.int "x" 5 5]) [("x", Value.int 5)] = some [] ∧
    from_buffer (construct [FieldSpec.int "x" 5 5]) buf = some [("x", Value.int 5)] := by
  refine ⟨rfl, ?_⟩
  obtain ⟨b, t, rfl⟩ : ∃ b t, buf = b :: t := by
    cases buf with
    | nil => exact absurd rfl hne
    | cons b t => exact ⟨b, t, rfl⟩
  have h0 : (b :: t)[0]? = some b := by simp
  rw [from_buffer, h0]
  show decFields (b :: t) (construct [FieldSpec.int "x" 5 5]).fields b 8 1 [] =
    some [("x", Value.int 5)]
  have hfields : (construct [FieldSpec.int "x" 5 5]).fields = [RField.int "x" 5 5 0 true] := by
    decide
  rw [hfields, decFields_int_ap]
  rfl

/-- C4, witness at the input `[7]`. -/
theorem c4_always_present_witness :
    ([7] : List Nat) ≠ [] ∧
    (to_buffer (construct [FieldSpec.int "x" 5 5]) [("x", Value.int 5)] = some [] ∧
      from_buffer (construct [FieldSpec.int "x" 5 5]) [7] = some [("x", Value.int 5)]) :=
  ⟨by decide, c4_always_present_amended [7] (by decide)⟩

/-- C5, counterexample: one Int field `x:[0,255]` with value `0`
accumulates 8 pending bits, yet the encoder emits no byte at all (the
flush loop is guarded by `int > 0`): the output is `[]`, not `[0]`. -/
theorem c5_flush_counterexample :
    to_buffer (construct [FieldSpec.int "x" 0 255]) [("x", Value.int 0)] = some [] ∧
    ([] : List Nat) ≠ [0] :=
  ⟨rfl, by decide⟩

/-- C5, amended: the flush loops emit a byte only while the accumulator
is nonzero, so the emitted fixed region is the minimal little-endian
byte representation of the packed bitstream — every trailing zero byte,
full or partial, is omitted (stated here for Bytes-free schemas so the
output is exactly the fixed region, on the small-span, at most 31
total bits domain where the embedding's exact `f32`-logarithm and `i32`
accumulator models are provably faithful). -/
theorem c5_flush_amended (fs : List FieldSpec) (value : List (String × Value))
    (hok : valuesOk value (construct fs).fields = true)
    (hsmall : fs.all smallSpan = true)
    (htb : totalBits (construct fs).fields ≤ 31)
    (hnob : ∀ f ∈ (construct fs).fields, isBytesR f = false) :
    to_buffer (construct fs) value = some (natToLE (packN value (construct fs).fields)) := by
  rw [to_buffer_spec (construct fs) value hok (construct_resolvedOk fs) htb]
  rw [payloadsOf_eq_nil hnob]
  simp

/-- C5, witness at the schema `x:[0,2]` with `x ↦ 2`. -/
theorem c5_flush_witness :
    valuesOk [("x", Value.int 2)] (construct [FieldSpec.int "x" 0 2]).fields = true ∧
    [FieldSpec.int "x" 0 2].all smallSpan = true ∧
    totalBits (construct [FieldSpec.int "x" 0 2]).fields ≤ 31 ∧
    (∀ f ∈ (construct [FieldSpec.int "x" 0 2]).fields, isBytesR f = false) ∧
    to_buffer (construct [FieldSpec.int "x" 0 2]) [("x", Value.int 2)] =
      some (natToLE (packN [("x", Value.int 2)] (construct [FieldSpec.int "x" 0 2]).fields)) :=
  ⟨by decide, by decide, by decide, by decide,
    c5_flush_amended [FieldSpec.int "x" 0 2] [("x", Value.int 2)]
      (by decide) (by decide) (by decide) (by decide)⟩

/-- C6, counterexample: two Bytes fields with payloads `[1]` (field `p`)
and `[2]` (field `q`).  The resolved order is `p` then `q`, so the claim
predicts fixed bytes `[5]` followed by `[1]` then `[2]`; the code's
insertion loop (each payload inserted at index `bytes.len()`) instead
produces `[5, 2, 1]` — payloads in reverse resolved order. -/
theorem c6_payload_counterexample :
    to_buffer (construct [FieldSpec.bytes "p" 3, FieldSpec.bytes "q" 3])
        [("p", Value.buffer [1]), ("q", Value.buffer [2])] = some [5, 2, 1] ∧
    ([5, 2, 1] : List Nat) ≠ [5, 1, 2] :=
  ⟨rfl, by decide⟩

/-- C6, amended: the output is the fixed-width bytes followed by the
deferred payloads concatenated in REVERSE resolved field order (each
later payload is inserted at the end of the fixed region, in front of
the payloads already placed), stated on the small-span, at most 31
total bits domain where the embedding's exact `f32`-logarithm and `i32`
accumulator models are provably faithful. -/
theorem c6_payload_amended (fs : List FieldSpec) (value : List (String × Value))
    (hok : valuesOk value (construct fs).fields = true)
    (hsmall : fs.all smallSpan = true)
    (htb : totalBits (construct fs).fields ≤ 31) :
    to_buffer (construct fs) value =
      some (natToLE (packN value (construct fs).fields) ++
        (payloadsOf value (construct fs).fields).reverse.flatten) :=
  to_buffer_spec (construct fs) value hok (construct_resolvedOk fs) htb

/-- C6, witness at the two-Bytes-fields schema of the counterexample. -/
theorem c6_payload_witness :
    valuesOk [("p", Value.buffer [1]), ("q", Value.buffer [2])]
      (construct [FieldSpec.bytes "p" 3, FieldSpec.bytes "q" 3]).fields = true ∧
    [FieldSpec.bytes "p" 3, FieldSpec.bytes "q" 3].all smallSpan = true ∧
    totalBits (construct [FieldSpec.bytes "p" 3, FieldSpec.bytes "q" 3]).fields ≤ 31 ∧
    to_buffer (construct [FieldSpec.bytes "p" 3, FieldSpec.bytes "q" 3])
        [("p", Value.buffer [1]), ("q", Value.buffer [2])] =
      some (natToLE (packN [("p", Value.buffer [1]), ("q", Value.buffer [2])]
          (construct [FieldSpec.bytes "p" 3, FieldSpec.bytes "q" 3]).fields) ++
        (payloadsOf [("p", Value.buffer [1]), ("q", Value.buffer [2])]
          (construct [FieldSpec.bytes "p" 3, FieldSpec.bytes "q" 3]).fields).reverse.flatten) :=
  ⟨by decide, by decide, by decide,
    c6_payload_amended [FieldSpec.bytes "p" 3, FieldSpec.bytes "q" 3]
      [("p", Value.buffer [1]), ("q", Value.buffer [2])] (by decide) (by decide) (by decide)⟩

/-- C7: decoding an input shorter than the fixed-width region requires
(`ceil(totalBits/8)` bytes) always fails; the failure is the out-of-range
index access, modelled as `none`, and the decoder never reads past the
end of the input. -/
theorem c7_decode_underrun (fs : List FieldSpec) (buffer : List Nat)
    (hshort : buffer.length < (totalBits (construct fs).fields + 7) / 8) :
    from_buffer (construct fs) buffer = none :=
  from_buffer_short (construct fs) buffer (construct_resolvedOk fs) hshort

/-- C7, witness: the empty input against a one-Boolean schema. -/
theorem c7_decode_underrun_witness :
    ([] : List Nat).length < (totalBits (construct [FieldSpec.boolean "b"]).fields + 7) / 8 ∧
    from_buffer (construct [FieldSpec.boolean "b"]) [] = none :=
  ⟨by decide, c7_decode_underrun [FieldSpec.boolean "b"] [] (by decide)⟩

/-- C8: the encoder performs no range check.  With `x:[0,1]` set to the
out-of-range value `2` and `y:[0,3]` set to `0`, `to_buffer` succeeds
(no RangeError exists anywhere in the code) and produces `[2]`, which
decodes to `x = 0` and `y = 1` — the later in-range field `y` is
silently corrupted, exactly what the claim says must not happen. -/
theorem c8_range_check_missing :
    to_buffer (construct [FieldSpec.int "x" 0 1, FieldSpec.int "y" 0 3])
        [("x", Value.int 2), ("y", Value.int 0)] = some [2] ∧
    from_buffer (construct [FieldSpec.int "x" 0 1, FieldSpec.int "y" 0 3]) [2] =
      some [("y", Value.int 1), ("x", Value.int 0)] ∧
    Value.int 1 ≠ Value.int 0 :=
  ⟨rfl, rfl, by decide⟩

/-- C9, counterexample: a single Boolean field has `totalBits = 1`, so
the claimed `maxByteLength = ceil(1/8) = 1`, but `construct` computes
`0`: the integer division `max_bits / 8` truncates before the `f32`
ceiling is applied. -/
theorem c9_capacity_counterexample :
    (construct [FieldSpec.boolean "b"]).maxByteLength = 0 ∧
    (totalBits (construct [FieldSpec.boolean "b"]).fields + 7) / 8 = 1 :=
  ⟨rfl, rfl⟩

/-- C9, amended: `maxByteLength` is the FLOOR of `totalBits / 8` (the
`((max_bits / 8) as f32).ceil()` of the source divides in `i32` first,
so the ceiling operates on a whole number and does nothing). -/
theorem c9_capacity_amended (fs : List FieldSpec) :
    (construct fs).maxByteLength = totalBits (construct fs).fields / 8 :=
  construct_maxByteLength fs

/-- C10: `from_buffer` reads `buffer[0]` before examining any field, so
decoding the empty byte sequence fails for every schema — including
schemas whose fields are all always-present and need no encoded bits. -/
theorem c10_empty_input (fs : List FieldSpec) :
    from_buffer (construct fs) [] = none :=
  rfl

end Serializer
